import Mathlib

/-!
Shallow embedding of the PSPTrace SPI-capture decoder and its post-processing
pipeline (src/psptrace/psptrace.py), together with theorems settling the
frozen claims about it.

Conventions of the embedding:
* Python lists of samples become Lean `List`s; timestamps are `Int`
  (nanoseconds), sample values are `Nat`.
* Python `dict`s keyed by start time become association lists
  `List (Int × α)`; insertion of an existing key replaces the value in
  place, insertion of a fresh key appends (matching CPython dict order).
* Out-of-range indexing, `KeyError` and `ValueError` — the places where the
  Python code can raise — are modelled by `Option`: a raised exception is
  `none`.
* Loops are modelled by fuel-indexed structural recursion; the entry points
  supply enough fuel for the loop to run to completion (each iteration
  advances the cursor by at least one), so `none` from fuel exhaustion
  never occurs from the entry points.
-/

namespace PSPTrace

/-- A region type: psptool entry types are ints, directory/firmware-table
labels are strings. Only equality on them matters to the pipeline. -/
inductive RType where
  | code : Nat → RType
  | label : String → RType
deriving DecidableEq

/-- One row of the WINBOND_INSTRUCTIONS opcode catalog:
name, total instruction-frame length in bytes, whether data is returned. -/
structure WInstr where
  name : String
  size : Nat
  expects_data : Bool
deriving DecidableEq

/-- The opcode catalog of psptrace.py lines 35-231, as an ordered
association list (CPython dict preserves insertion order). -/
def WINBOND_LIST : List (Nat × WInstr) := [
  (0x06, ⟨"Write Enable", 1, false⟩),
  (0x50, ⟨"Volatile SR Write Enable", 1, false⟩),
  (0x04, ⟨"Write Disable", 1, false⟩),
  (0xAB, ⟨"Release Power-down / ID", 4, true⟩),
  (0x90, ⟨"Manufacturer/Device ID", 4, true⟩),
  (0x9F, ⟨"JEDEC ID", 1, true⟩),
  (0x4B, ⟨"Manufacturer/Device ID", 5, true⟩),
  (0x03, ⟨"Read Data", 4, true⟩),
  (0x0B, ⟨"Fast Read", 5, true⟩),
  (0x02, ⟨"Page Program", 6, false⟩),
  (0x20, ⟨"Sector Erase (4KB)", 4, false⟩),
  (0x52, ⟨"Block Erase (32KB)", 4, false⟩),
  (0xD8, ⟨"Block Erase (64KB)", 4, false⟩),
  (0xC7, ⟨"Chip Erase (0xC7)", 1, false⟩),
  (0x60, ⟨"Chip Erase (0x60)", 1, false⟩),
  (0x05, ⟨"Read Status Register-1 (0x05)", 1, true⟩),
  (0x01, ⟨"Read Status Register-1 (0x01)", 1, true⟩),
  (0x35, ⟨"Read Status Register-2 (0x35)", 1, true⟩),
  (0x31, ⟨"Read Status Register-2 (0x31)", 1, true⟩),
  (0x15, ⟨"Read Status Register-3 (0x15)", 1, true⟩),
  (0x11, ⟨"Read Status Register-3 (0x11", 1, true⟩),
  (0x5A, ⟨"Read SFDP Register", 5, true⟩),
  (0x44, ⟨"Erase Security Register", 4, false⟩),
  (0x42, ⟨"Program Security Register", 6, false⟩),
  (0x48, ⟨"Read Security Register", 5, true⟩),
  (0x7E, ⟨"Global Block Lock", 1, false⟩),
  (0x98, ⟨"Global Block Unlock", 1, false⟩),
  (0x3D, ⟨"Read Block Lock", 4, true⟩),
  (0x36, ⟨"Individual Block Lock", 4, false⟩),
  (0x39, ⟨"Individual Block Unlock", 4, false⟩),
  (0x75, ⟨"Erase / Program Suspend", 1, false⟩),
  (0x7A, ⟨"Erase / Program Resume", 1, false⟩),
  (0xB9, ⟨"Power-down", 1, false⟩),
  (0x66, ⟨"Enable Reset", 1, false⟩),
  (0x99, ⟨"Reset Device", 1, false⟩),
  (0xEB, ⟨"Fast Read Quad I/O", 4, true⟩),
  (0xE7, ⟨"Word Read Quad I/O", 4, true⟩),
  (0xE3, ⟨"Octal Word Read Quad I/O", 4, true⟩),
  (0x94, ⟨"Mftr./Device ID Quad I/O", 4, true⟩)]

/-- Catalog lookup: `WINBOND_INSTRUCTIONS[b]` (None when the opcode is
not in the catalog). -/
def WINBOND_INSTRUCTIONS (b : Nat) : Option WInstr :=
  (WINBOND_LIST.find? (fun p => p.1 == b)).map Prod.snd

/-- `b in WINBOND_INSTRUCTIONS.keys()`. -/
def isKnownOpcode (b : Nat) : Bool :=
  (WINBOND_INSTRUCTIONS b).isSome

/-- Loop body of `count_data_bytes` (psptrace.py lines 254-267):
`data_bytes` is incremented while `s[base_addr + data_bytes]` is not a
catalog opcode; an `IndexError` (out-of-range lookup) stops the scan and
returns the current count. -/
def count_data_bytes_aux (s : List Nat) (base : Nat) : Nat → Nat → Nat
  | 0, d => d
  | fuel + 1, d =>
    match s[base + d]? with
    | none => d
    | some b => if isKnownOpcode b then d else count_data_bytes_aux s base fuel (d + 1)

/-- `count_data_bytes(base_addr, s)`: counts the returned data bytes of an
instruction starting from 1 (the scan never looks at the first data byte).
Fuel `s.length + 1` always suffices: the scan stops at the latest when
`base + d` reaches `s.length`. -/
def count_data_bytes (base_addr : Nat) (s : List Nat) : Nat :=
  count_data_bytes_aux s base_addr (s.length + 1) 1

/-- `int.from_bytes(bs, byteorder='big')`. -/
def bytesToNatBE (bs : List Nat) : Nat :=
  bs.foldl (fun a b => a * 256 + b) 0

/-- `bytes(l)`: raises `ValueError` (here `none`) unless every element is a
byte value. -/
def pyBytes? (l : List Nat) : Option (List Nat) :=
  if l.all (fun b => b < 256) then some l else none

/-- Python list indexing with negative-index wraparound,
`l[i]` for `i : Int`; `none` models `IndexError`. -/
def pyGet {α : Type} (l : List α) (i : Int) : Option α :=
  if 0 ≤ i then l[i.toNat]?
  else if 0 ≤ (l.length : Int) + i then l[((l.length : Int) + i).toNat]?
  else none

/-- The RangeDict of psptrace.py lines 244-251: an insertion-ordered
collection of `(range(lo, hi), value)` pairs; lookup returns the value of
the first registered range containing the key, `None` if no range does. -/
abbrev RangeDict (α : Type) : Type := List (Nat × Nat × α)

/-- `RangeDict.__getitem__`: iterate the keys in insertion order and return
the value of the first `range` containing `a` (`lo ≤ a < hi`). -/
def rdLookup {α : Type} : RangeDict α → Nat → Option α
  | [], _ => none
  | (lo, hi, ty) :: rest, a =>
    if lo ≤ a ∧ a < hi then some ty else rdLookup rest a

/-- One decoded read access (the dict built at psptrace.py lines 406-416).
`duplicate_count` is absent (`none`) until `aggregate_duplicates` sets it
(Python: a missing dict key). -/
structure ReadAccess where
  instr_index : Nat
  start_time : Int
  end_time : Int
  duration : Int
  latency : Int
  address : Nat
  size : Nat
  type_ : Option RType
  info : List String
  duplicate_count : Option Nat := none
deriving DecidableEq

section AssocDict

variable {κ α : Type} [DecidableEq κ]

/-- `d[k] = v` on a dict: replace in place if the key exists, else append
(CPython dict insertion order). -/
def dinsert (k : κ) (v : α) : List (κ × α) → List (κ × α)
  | [] => [(k, v)]
  | (k', v') :: rest =>
    if k' = k then (k, v) :: rest else (k', v') :: dinsert k v rest

/-- `d[k]` on a dict (`none` models `KeyError`). -/
def dlookup (k : κ) : List (κ × α) → Option α
  | [] => none
  | (k', v') :: rest => if k' = k then some v' else dlookup k rest

/-- Mutation of the record stored at an existing key (Python mutates the
dict value in place); a no-op when the key is absent. -/
def dreplace (k : κ) (v : α) : List (κ × α) → List (κ × α)
  | [] => []
  | (k', v') :: rest =>
    if k' = k then (k, v) :: rest else (k', v') :: dreplace k v rest

/-- `del d[k]`; a no-op when the key is absent (the code only deletes keys
it has just looked up). -/
def ddelete (k : κ) : List (κ × α) → List (κ × α)
  | [] => []
  | (k', v') :: rest => if k' = k then rest else (k', v') :: ddelete k rest

end AssocDict

/-- `sorted(read_accesses.items())`: the Python dict items sorted by key
(keys are unique, so only the first tuple component is ever compared). -/
def sortByKey {α : Type} (l : List (Int × α)) : List (Int × α) :=
  List.insertionSort (fun p q => p.1 ≤ q.1) l

/-- `unparsable_instructions[name] += 1`; the dict is initialised with every
catalog name, so the key is always present (a missing key is a no-op here,
unreachable from the decoder). -/
def bumpName (name : String) : List (String × Nat) → List (String × Nat)
  | [] => []
  | (n, c) :: rest =>
    if n = name then (n, c + 1) :: rest else (n, c) :: bumpName name rest

/-- `invalid_instructions[instr] += 1` with first occurrence initialised to
0 (a quirk of psptrace.py lines 436-439, kept faithfully). -/
def bumpInvalid (instr : Nat) (m : List (Nat × Nat)) : List (Nat × Nat) :=
  if (dlookup instr m).isSome then
    m.map (fun p => if p.1 = instr then (p.1, p.2 + 1) else p)
  else m ++ [(instr, 0)]

/-- `{instr['name']: 0 for instr in WINBOND_INSTRUCTIONS.values()}`:
duplicate names collapse to a single key, as in a Python dict
comprehension. -/
def initUnparsable : List (String × Nat) :=
  WINBOND_LIST.foldl (fun m p => dinsert p.2.name 0 m) []

/-- Mutable loop state of the single-line scan of `find_read_accesses`
(psptrace.py lines 377-386). `end_time` is the running variable assigned
at line 386 and in the read branch; `last_end_time` starts at 0. -/
structure StateA where
  read_accesses : List (Int × ReadAccess)
  unparsable : List (String × Nat)
  invalid : List (Nat × Nat)
  last_end_time : Int
  end_time : Int
  instr_index : Nat
deriving DecidableEq

/-- The `while index < len(data['mosi'])` loop of `find_read_accesses`,
Case 1 (psptrace.py lines 389-442). Besides the `read_accesses` dict the
embedding also returns the emission trace: the cursor position of every
emitted access in order, used to state per-instruction timing facts. The
result is `none` exactly when the Python loop would raise
(IndexError on a `data['time']` lookup, ValueError in `bytes(...)`). -/
def findA (rd : RangeDict RType) (time : List Int) (mosi : List Nat) :
    Nat → Nat → StateA → Option (List (Int × ReadAccess) × List (Nat × ReadAccess))
  | 0, _, _ => none
  | fuel + 1, index, st =>
    if h : index < mosi.length then
      let instr := mosi[index]
      if instr = 0x03 ∨ instr = 0x0B then
        match WINBOND_INSTRUCTIONS instr with
        | none => none
        | some w =>
          let data_bytes := count_data_bytes (index + w.size) mosi
          match time[index]?, time[index + data_bytes]? with
          | some start_time, some end_time =>
            match pyBytes? ((mosi.drop (index + 1)).take 3) with
            | none => none
            | some addrBytes =>
              let duration := end_time - start_time
              let latency := start_time - st.last_end_time
              let address := bytesToNatBE addrBytes
              let size := data_bytes
              let type_ := rdLookup rd address
              let acc : ReadAccess :=
                ⟨st.instr_index, start_time, end_time, duration, latency,
                 address, size, type_, [], none⟩
              (findA rd time mosi fuel (index + w.size + data_bytes)
                  { st with
                    read_accesses := dinsert start_time acc st.read_accesses,
                    last_end_time := end_time,
                    end_time := end_time,
                    instr_index := st.instr_index + 1 }).map
                (fun pr => (pr.1, (index, acc) :: pr.2))
          | _, _ => none
      else
        match WINBOND_INSTRUCTIONS instr with
        | some w =>
          let data_bytes :=
            if w.expects_data then count_data_bytes (index + w.size) mosi else 0
          findA rd time mosi fuel (index + w.size + data_bytes)
            { st with
              unparsable := bumpName w.name st.unparsable,
              last_end_time := st.end_time,
              instr_index := st.instr_index + 1 }
        | none =>
          findA rd time mosi fuel (index + 1)
            { st with
              invalid := bumpInvalid instr st.invalid,
              instr_index := st.instr_index + 1 }
    else
      some (st.read_accesses, [])

/-- `find_read_accesses` for Case 1 returning the read-access dict and the
emission trace. The initial `end_time = data['time'][index]` (line 386)
raises on an empty capture, hence the leading `time[0]?` match. Fuel
`mosi.length + 1` always suffices: every iteration advances the cursor. -/
def find_read_accesses_mosi_traced (rd : RangeDict RType) (time : List Int)
    (mosi : List Nat) :
    Option (List (Int × ReadAccess) × List (Nat × ReadAccess)) :=
  match time[0]? with
  | none => none
  | some e0 => findA rd time mosi (mosi.length + 1) 0 ⟨[], initUnparsable, [], 0, e0, 0⟩

/-- `find_read_accesses(data, psptool)` for Case 1 (standard Saleae SPI
export): just the read-access dict. -/
def find_read_accesses_mosi (rd : RangeDict RType) (time : List Int)
    (mosi : List Nat) : Option (List (Int × ReadAccess)) :=
  (find_read_accesses_mosi_traced rd time mosi).map Prod.fst

/-- Cursor advance of one iteration of the Case-1 scan, mirroring the three
branches of psptrace.py lines 391-442 (read, recognized non-read,
unknown). -/
def instrConsume (mosi : List Nat) (index : Nat) (h : index < mosi.length) : Nat :=
  let instr := mosi[index]
  if instr = 0x03 ∨ instr = 0x0B then
    match WINBOND_INSTRUCTIONS instr with
    | none => 1
    | some w => w.size + count_data_bytes (index + w.size) mosi
  else
    match WINBOND_INSTRUCTIONS instr with
    | some w =>
      w.size + (if w.expects_data then count_data_bytes (index + w.size) mosi else 0)
    | none => 1

/-- The per-instruction sample counts consumed by the Case-1 scan from a
given cursor position (frame length plus counted data length, or 1 for an
unknown opcode), in decode order. -/
def consumptionsFrom (mosi : List Nat) : Nat → Nat → List Nat
  | 0, _ => []
  | fuel + 1, index =>
    if h : index < mosi.length then
      instrConsume mosi index h ::
        consumptionsFrom mosi fuel (index + instrConsume mosi index h)
    else []

/-- The consumption sequence of a whole Case-1 scan. -/
def consumptions (mosi : List Nat) : List Nat :=
  consumptionsFrom mosi (mosi.length + 1) 0

/-- One access record of the Case-2 (quad SPI) scan: created with the
fields of psptrace.py lines 473-480 and finalised later by the
finalize-on-next-start logic, so `size`/`end_time`/`duration`/`latency`
are absent (`none`) until then. -/
structure QAccess where
  instr_index : Nat
  start_time : Int
  last_end_time : Int
  address : Nat
  type_ : Option RType
  info : List String
  size : Option Int := none
  end_time : Option Int := none
  duration : Option Int := none
  latency : Option Int := none
deriving DecidableEq

/-- Mutable loop state of the Case-2 scan (psptrace.py lines 377-385). -/
structure StateB where
  read_accesses : List (Int × QAccess)
  last_start_time : Int
  last_end_time : Int
  last_index : Nat
  instr_index : Nat
deriving DecidableEq

/-- Finalisation of the previously opened access (psptrace.py lines
458-471 and 491-504): set its size from the sample distance, its end time
from the sample before `index`, and derive duration and latency. -/
def finalizeQ (time : List Int) (index : Nat) (last_index : Nat)
    (prevAcc : QAccess) : Option QAccess :=
  match pyGet time ((index : Int) - 1) with
  | none => none
  | some previous_end_time =>
    some { prevAcc with
           size := some ((index : Int) - (last_index : Int) - 2),
           end_time := some previous_end_time,
           duration := some (previous_end_time - prevAcc.start_time),
           latency := some (prevAcc.start_time - prevAcc.last_end_time) }

/-- The `while index < len(data['value']) - 1` loop of
`find_read_accesses`, Case 2 (psptrace.py lines 446-504), including the
after-loop finalisation of the last open access. `none` models the
exceptions the Python code can raise (KeyError on
`read_accesses[last_start_time]` when no read command was ever found,
IndexError on a `data['time']` lookup). -/
def findB (rd : RangeDict RType) (time : List Int) (value : List Nat) :
    Nat → Nat → StateB → Option (List (Int × QAccess))
  | 0, _, _ => none
  | fuel + 1, index, st =>
    if index + 1 < value.length then
      match value[index]?, value[index + 1]? with
      | some v, some next_value =>
        if (v = 0x03 ∨ v = 0x0B ∨ v = 0xEB ∨ v = 0xE7 ∨ v = 0xE3 ∨ v = 0xEC)
            ∧ next_value > 0xFF then
          let address := next_value
          match time[index]? with
          | none => none
          | some start_time =>
            let type_ := rdLookup rd address
            let acc : QAccess :=
              ⟨st.instr_index, start_time, st.last_end_time, address, type_,
               if v = 0xEB ∨ v = 0xE7 ∨ v = 0xE3 then ["QSPI"] else [],
               none, none, none, none⟩
            if st.instr_index > 0 then
              match dlookup st.last_start_time st.read_accesses with
              | none => none
              | some prevAcc =>
                match finalizeQ time index st.last_index prevAcc with
                | none => none
                | some prevAcc' =>
                  let finalized :=
                    dreplace st.last_start_time prevAcc' st.read_accesses
                  findB rd time value fuel (index + 2)
                    { read_accesses := dinsert start_time acc finalized,
                      last_start_time := start_time,
                      last_end_time := (prevAcc'.end_time).getD 0,
                      last_index := index,
                      instr_index := st.instr_index + 1 }
            else
              findB rd time value fuel (index + 2)
                { read_accesses := dinsert start_time acc st.read_accesses,
                  last_start_time := start_time,
                  last_end_time := 0,
                  last_index := index,
                  instr_index := st.instr_index + 1 }
        else
          findB rd time value fuel (index + 1) st
      | _, _ => none
    else
      match dlookup st.last_start_time st.read_accesses with
      | none => none
      | some prevAcc =>
        match finalizeQ time index st.last_index prevAcc with
        | none => none
        | some prevAcc' =>
          some (dreplace st.last_start_time prevAcc' st.read_accesses)

/-- `find_read_accesses(data, psptool)` for Case 2 (quad SPI export). The
initial `end_time = data['time'][index]` lookup of line 386 runs before
the dispatch and raises on an empty capture. -/
def find_read_accesses_value (rd : RangeDict RType) (time : List Int)
    (value : List Nat) : Option (List (Int × QAccess)) :=
  match time[0]? with
  | none => none
  | some e0 =>
    let _ := e0
    findB rd time value (value.length + 1) 0 ⟨[], 0, 0, 0, 0⟩

/-- psptrace.py line 514. -/
def MAXIMUM_AGGREGATION_COUNT : Nat := 8

/-- psptrace.py line 515 (microseconds). -/
def TIME_BLOCK_LATENCY_THRESHOLD : Int := 50

/-- `deque(maxlen=cap).append(x)`: append on the right, discarding the
leftmost element when the deque is full. -/
def pushCap {α : Type} (cap : Nat) (x : α) (l : List α) : List α :=
  if l.length < cap then l ++ [x] else l.drop 1 ++ [x]

/-- The `for time, values in sorted(read_accesses.items())` loop of
`aggregate_duplicates` (psptrace.py lines 530-555). State: the two
bounded deques of recent addresses / original times, and the working
copy `aggregated_accesses`. `none` models the exceptions Python could
raise (deque index out of range, KeyError, `None < int` comparison). -/
def aggLoop : List (Int × ReadAccess) → List Nat → List Int →
    List (Int × ReadAccess) → Option (List (Int × ReadAccess))
  | [], _, _, agg => some agg
  | (time, values) :: rest, recent_addresses, recent_originals, agg =>
    let address := values.address
    if address ∉ recent_addresses then
      match dlookup time agg with
      | none => none
      | some cur =>
        aggLoop rest (pushCap 200 address recent_addresses)
          (pushCap 200 time recent_originals)
          (dreplace time { cur with duplicate_count := some 1 } agg)
    else
      let idx := recent_addresses.indexOf address
      match recent_originals[idx]? with
      | none => none
      | some original_access_time =>
        match dlookup original_access_time agg with
        | none => none
        | some ov =>
          match ov.duplicate_count with
          | none => none
          | some c =>
            if c < MAXIMUM_AGGREGATION_COUNT then
              aggLoop rest recent_addresses recent_originals
                (ddelete time
                  (dreplace original_access_time
                    { ov with duplicate_count := some (c + 1) } agg))
            else
              aggLoop rest (recent_addresses.eraseIdx idx)
                (recent_originals.eraseIdx idx)
                (ddelete time agg)

/-- The final loop of `aggregate_duplicates` (psptrace.py lines 557-560):
append an `x<count>` annotation to every surviving record. `none` models
the `TypeError` Python would raise on a record without a count. -/
def aggFinish : List (Int × ReadAccess) → Option (List (Int × ReadAccess))
  | [] => some []
  | (t, v) :: rest =>
    match v.duplicate_count with
    | none => none
    | some c =>
      (aggFinish rest).map
        (fun r => (t, { v with info := v.info ++ ["x" ++ toString c] }) :: r)

/-- `aggregate_duplicates(read_accesses)` (psptrace.py lines 518-562). -/
def aggregate_duplicates (read_accesses : List (Int × ReadAccess)) :
    Option (List (Int × ReadAccess)) :=
  match aggLoop (sortByKey read_accesses) [] [] read_accesses with
  | none => none
  | some agg => aggFinish agg

/-- The `last_access` record of `collapse_entry_types` (psptrace.py lines
572-577); `none` is the initial all-`None` state tested via
`last_access['address'] is not None`. -/
structure LastAccess where
  type_ : Option RType
  address : Nat
  size : Nat
  duplicate_count : Option Nat
deriving DecidableEq

/-- The merged record built when two consecutive accesses collapse
(psptrace.py lines 586-606): fields from the previous surviving record
and the current one (the dict literal omits `duplicate_count`), tagged
`[c]` if not already, and `~` when the multiplicities of the two merged
accesses differ. -/
def mergeRec (prev values : ReadAccess) (la : LastAccess) : ReadAccess :=
  let merged0 : ReadAccess :=
    ⟨prev.instr_index, prev.start_time, values.end_time,
     prev.duration + values.duration, prev.latency, prev.address,
     prev.size + values.size, prev.type_, prev.info, none⟩
  let merged1 :=
    if "[c]" ∈ merged0.info then merged0
    else { merged0 with info := merged0.info ++ ["[c]"] }
  if values.duplicate_count ≠ la.duplicate_count ∧ "~" ∉ merged1.info
  then { merged1 with info := merged1.info ++ ["~"] }
  else merged1

/-- The loop of `collapse_entry_types` (psptrace.py lines 579-616) over the
items sorted by start time. -/
def collapseLoop : List (Int × ReadAccess) → Option LastAccess →
    List ReadAccess → Option (List ReadAccess)
  | [], _, collapsed => some collapsed
  | (_, values) :: rest, last, collapsed =>
    let nextLast : LastAccess :=
      ⟨values.type_, values.address, values.size, values.duplicate_count⟩
    match last with
    | some la =>
      if values.type_ = la.type_ ∧ values.address ≤ la.address + la.size then
        match collapsed.getLast? with
        | none => none
        | some prev =>
          collapseLoop rest (some nextLast)
            (collapsed.dropLast ++ [mergeRec prev values la])
      else
        collapseLoop rest (some nextLast) (collapsed ++ [values])
    | none =>
      collapseLoop rest (some nextLast) (collapsed ++ [values])

/-- `collapse_entry_types(read_accesses)` (psptrace.py lines 565-619); the
result list is converted back to a dict keyed by start time. -/
def collapse_entry_types (read_accesses : List (Int × ReadAccess)) :
    Option (List (Int × ReadAccess)) :=
  (collapseLoop (sortByKey read_accesses) none []).map
    (fun collapsed => collapsed.foldl (fun m v => dinsert v.start_time v m) [])

/-- `min(v['start_time'] for v in read_accesses.values())`; `none` models
the `ValueError` Python raises on an empty collection. -/
def minStart? : List (Int × ReadAccess) → Option Int
  | [] => none
  | (_, v) :: rest =>
    some (rest.foldl (fun m p => min m p.2.start_time) v.start_time)

/-- `do_normalize_timestamps(read_accesses)` (psptrace.py lines 622-631):
shift every start and end time down by the minimum start time, keeping
the original keys. -/
def do_normalize_timestamps (read_accesses : List (Int × ReadAccess)) :
    Option (List (Int × ReadAccess)) :=
  match minStart? read_accesses with
  | none => none
  | some min_time =>
    some (read_accesses.map (fun p =>
      (p.1, { p.2 with start_time := p.2.start_time - min_time,
                       end_time := p.2.end_time - min_time })))

/-- The CCP heuristic of `PSPTrace.__init__` (psptrace.py lines 684-686):
annotate a read of size 0x40 with 'CCP'. -/
def ccpTag (v : ReadAccess) : ReadAccess :=
  if v.size = 0x40 then { v with info := v.info ++ ["CCP"] } else v

/-- The annotation loop applied to the whole collection. -/
def annotate_ccp (read_accesses : List (Int × ReadAccess)) :
    List (Int × ReadAccess) :=
  read_accesses.map (fun p => (p.1, ccpTag p.2))

/-- An overview row (`{**values, 'lowest_access': ..., 'highest_access':
...}` of psptrace.py lines 656-660). -/
structure OverviewAccess where
  base : ReadAccess
  lowest_access : Nat
  highest_access : Nat
deriving DecidableEq

/-- The reduction loop of `get_overview_read_accesses` (psptrace.py lines
645-669). `known_types` maps `(type, is_ccp)` pairs seen in the current
time block to the original access time; it is cleared when the current
access's latency exceeds the time-block threshold. -/
def ovLoop : List (Int × ReadAccess) →
    List ((Option RType × Bool) × Int) → List (Int × OverviewAccess) →
    Option (List (Int × OverviewAccess))
  | [], _, ov => some ov
  | (start_time, values) :: rest, known_types, ov =>
    let latency_in_us := values.latency.fdiv 1000
    let is_ccp := values.info.contains "CCP"
    let kt := if latency_in_us > TIME_BLOCK_LATENCY_THRESHOLD then [] else known_types
    match dlookup (values.type_, is_ccp) kt with
    | none =>
      ovLoop rest (dinsert (values.type_, is_ccp) start_time kt)
        (dinsert start_time
          ⟨values, values.address, values.address + values.size⟩ ov)
    | some original_access_time =>
      match dlookup original_access_time ov with
      | none => none
      | some orec =>
        ovLoop rest kt
          (dreplace original_access_time
            { orec with
              lowest_access := min orec.lowest_access values.address,
              highest_access :=
                max orec.highest_access (values.address + values.size) } ov)

/-- `get_overview_read_accesses(read_accesses)` (psptrace.py lines
639-670). -/
def get_overview_read_accesses (read_accesses : List (Int × ReadAccess)) :
    Option (List (Int × OverviewAccess)) :=
  ovLoop (sortByKey read_accesses) [] []

/-!
Definitions used only to state the claims: concrete input families and
closed forms for the expected outputs.
-/

/-- A minimal access record at start time `j` to address `a`, as the
decoder would produce it (no `duplicate_count`, empty annotations). -/
def mkAcc (j : Int) (a : Nat) : ReadAccess :=
  ⟨0, j, j, 0, 0, a, 1, none, [], none⟩

/-- A stream of `n` consecutive accesses to the same address `a`, keyed by
their (strictly increasing) start times `0, 1, …, n-1`. -/
def runInput (n : Nat) (a : Nat) : List (Int × ReadAccess) :=
  (List.range n).map (fun (j : Nat) => ((j : Int), mkAcc (j : Int) a))

/-- Number of surviving originals when `n` consecutive same-address
accesses pass through duplicate aggregation: one new original is opened
every `MAXIMUM_AGGREGATION_COUNT + 1 = 9` occurrences (8 are counted, the
9th evicts the window slot and is dropped). -/
def numGroups (n : Nat) : Nat := (n + 8) / 9

/-- Multiplicity of the `g`-th surviving original out of `n` same-address
occurrences. -/
def survCount (n g : Nat) : Nat := min 8 (n - 9 * g)

/-- Closed form of `aggregate_duplicates` on `runInput n a`: the surviving
originals with their multiplicities and `x<count>` annotations. -/
def expSurv (a : Nat) (n : Nat) : List (Int × ReadAccess) :=
  (List.range (numGroups n)).map (fun g =>
    (((9 * g : Nat) : Int),
     { mkAcc ((9 * g : Nat) : Int) a with
       duplicate_count := some (survCount n g),
       info := ["x" ++ toString (survCount n g)] }))

/-- Closed form of the loop state's survivors after processing the first
`k` occurrences (no annotations yet). -/
def survRaw (a : Nat) (k : Nat) : List (Int × ReadAccess) :=
  (List.range (numGroups k)).map (fun g =>
    (((9 * g : Nat) : Int),
     { mkAcc ((9 * g : Nat) : Int) a with
       duplicate_count := some (survCount k g) }))

/-- Closed form of the completed groups only: every original of a full
group of `MAXIMUM_AGGREGATION_COUNT + 1` occurrences carries
multiplicity 8. -/
def survFull (a : Nat) (q : Nat) : List (Int × ReadAccess) :=
  (List.range q).map (fun g =>
    (((9 * g : Nat) : Int),
     { mkAcc ((9 * g : Nat) : Int) a with duplicate_count := some 8 }))

/-- The tail of `runInput` starting at occurrence index `s`. -/
def runItems (a : Nat) (s len : Nat) : List (Int × ReadAccess) :=
  (List.range' s len).map (fun (j : Nat) => ((j : Int), mkAcc (j : Int) a))

/-- Sum of the multiplicities of an aggregated collection. -/
def sumCounts (l : List (Int × ReadAccess)) : Nat :=
  (l.map (fun p => p.2.duplicate_count.getD 0)).sum

/-- Sample records used to instantiate the pairwise collapse claims. -/
def cAcc1 : ReadAccess :=
  ⟨0, 100, 110, 10, 3, 0x1000, 0x10, some (RType.label "B"), [], some 2⟩

/-- Second sample record: same resolved type as `cAcc1`, contiguous
address. -/
def cAcc2 : ReadAccess :=
  ⟨1, 200, 230, 30, 4, 0x1010, 0x20, some (RType.label "B"), [], some 3⟩

/-- Sample records for the merged-span claim: a long first access, a short
overlapping second one, and a third inside the merged span but beyond the
second access's end. -/
def cB1 : ReadAccess :=
  ⟨0, 100, 110, 10, 3, 0x1000, 0x100, some (RType.label "B"), [], some 2⟩

/-- Second record of the merged-span family. -/
def cB2 : ReadAccess :=
  ⟨1, 200, 230, 30, 4, 0x1050, 0x10, some (RType.label "B"), [], some 2⟩

/-- Third record of the merged-span family. -/
def cB3 : ReadAccess :=
  ⟨2, 300, 330, 30, 4, 0x1070, 0x10, some (RType.label "B"), [], some 2⟩

/-- Sample records for the overview-reduction claim: same type, latencies
0, 10µs and 100µs. -/
def cOv1 : ReadAccess :=
  ⟨0, 0, 10, 10, 0, 0x1000, 0x10, some (RType.label "BOOT"), [], none⟩

/-- Second overview record (latency below the block threshold). -/
def cOv2 : ReadAccess :=
  ⟨1, 20, 30, 10, 10000, 0x1020, 0x10, some (RType.label "BOOT"), [], none⟩

/-- Third overview record (latency above the block threshold). -/
def cOv3 : ReadAccess :=
  ⟨2, 50, 60, 10, 100000, 0x1040, 0x10, some (RType.label "BOOT"), [], none⟩

/-- The single-line capture of the size-15 scenario with an unconstrained
final sample: opcode 0x03, address bytes 0x00 0x01 0x00, then sixteen
0xFF filler bytes (none of which is a catalog opcode). -/
def exC2M : List Nat :=
  (List.range 20).map (fun i =>
    if i = 0 then 0x03 else if i = 1 then 0 else if i = 2 then 1
    else if i = 3 then 0 else 0xFF)

/-- Timestamps 0, …, 19 for the 20-sample scenarios. -/
def exC2T : List Int := (List.range 20).map (fun i => (i : Int))

/-- A capture holding exactly one complete Read Data frame (4-byte header,
two data bytes 0xFF 0x02): the data byte 0x02 is a catalog opcode, so the
scan stops early and re-decodes it as a Page Program instruction. -/
def exC8M : List Nat := [0x03, 0x00, 0x00, 0x00, 0xFF, 0x02]

/-- A nine-sample capture: one read whose data-byte scan stops at the
known opcode 0x06 at position 8. -/
def exC4M : List Nat := [0x03, 0x00, 0x01, 0x00, 0xFF, 0xFF, 0xFF, 0xFF, 0x06]

/-- Timestamps 0, …, 8 for `exC4M`. -/
def exC4T : List Int := [0, 1, 2, 3, 4, 5, 6, 7, 8]

/-- The pointwise shift performed by `do_normalize_timestamps`. -/
def shiftAll (c : Int) (l : List (Int × ReadAccess)) : List (Int × ReadAccess) :=
  l.map (fun q => (q.1, { q.2 with start_time := q.2.start_time - c,
                                   end_time := q.2.end_time - c }))

/-!
General helper lemmas.
-/

theorem sortByKey_eq_self {α : Type} {l : List (Int × α)}
    (h : l.Pairwise (fun p q => p.1 ≤ q.1)) : sortByKey l = l :=
  List.Sorted.insertionSort_eq h

theorem min_sub_sub_right' (a b c : Int) : min (a - c) (b - c) = min a b - c := by
  rcases le_total a b with h | h
  · rw [min_eq_left h, min_eq_left (by omega)]
  · rw [min_eq_right h, min_eq_right (by omega)]

theorem foldl_min_shiftAll (c : Int) (rest : List (Int × ReadAccess)) :
    ∀ (a : Int),
      (shiftAll c rest).foldl (fun m p => min m p.2.start_time) (a - c)
      = rest.foldl (fun m p => min m p.2.start_time) a - c := by
  induction rest with
  | nil => intro a; rfl
  | cons p rest ih =>
    intro a
    simp only [shiftAll, List.map_cons, List.foldl_cons]
    rw [min_sub_sub_right' a p.2.start_time c, ← shiftAll]
    exact ih (min a p.2.start_time)

theorem shiftRec_zero (q : Int × ReadAccess) :
    (q.1, { q.2 with start_time := q.2.start_time - 0,
                     end_time := q.2.end_time - 0 }) = q := by
  obtain ⟨k, v⟩ := q
  cases v
  simp

theorem shiftAll_zero (l : List (Int × ReadAccess)) : shiftAll 0 l = l := by
  unfold shiftAll
  rw [show (fun q : Int × ReadAccess => (q.1,
        { q.2 with start_time := q.2.start_time - 0,
                   end_time := q.2.end_time - 0 })) = id from funext shiftRec_zero,
      List.map_id]

theorem shiftAll_proj (c : Int) (l : List (Int × ReadAccess)) :
    (shiftAll c l).map (fun p => (p.1, p.2.duration, p.2.latency))
      = l.map (fun p => (p.1, p.2.duration, p.2.latency)) := by
  simp [shiftAll, List.map_map, Function.comp]

theorem do_normalize_eq_of_min (l : List (Int × ReadAccess)) (c : Int)
    (h : minStart? l = some c) :
    do_normalize_timestamps l = some (shiftAll c l) := by
  unfold do_normalize_timestamps shiftAll
  rw [h]

/-!
Claim C6.
-/

/-- Claim C6: for every registered firmware region `[lo, hi)`: the address
`lo` resolves to that region unless an earlier-registered region also
contains `lo` (first match wins); the address `hi` never resolves via that
region (removing the region does not change the lookup at `hi`); and an
address contained in no registered region resolves to `None`. -/
theorem C6_range_dict :
    (∀ (pre post : RangeDict RType) (lo hi : Nat) (ty : RType),
        (∀ e ∈ pre, ¬(e.1 ≤ lo ∧ lo < e.2.1)) → lo < hi →
        rdLookup (pre ++ (lo, hi, ty) :: post) lo = some ty)
    ∧ (∀ (pre post : RangeDict RType) (lo hi : Nat) (ty : RType),
        rdLookup (pre ++ (lo, hi, ty) :: post) hi = rdLookup (pre ++ post) hi)
    ∧ (∀ (rd : RangeDict RType) (a : Nat),
        (∀ e ∈ rd, ¬(e.1 ≤ a ∧ a < e.2.1)) → rdLookup rd a = none) := by
  refine ⟨?_, ?_, ?_⟩
  · intro pre post lo hi ty hpre hlt
    induction pre with
    | nil => simp [rdLookup, Nat.le_refl, hlt]
    | cons e pre ih =>
      obtain ⟨elo, ehi, ety⟩ := e
      have h1 : ¬(elo ≤ lo ∧ lo < ehi) := hpre (elo, ehi, ety) (by simp)
      simp only [List.cons_append, rdLookup, if_neg h1]
      exact ih (fun e he => hpre e (by simp [he]))
  · intro pre post lo hi ty
    induction pre with
    | nil => simp [rdLookup, lt_irrefl]
    | cons e pre ih =>
      obtain ⟨elo, ehi, ety⟩ := e
      simp only [List.cons_append, rdLookup]
      split
      · rfl
      · exact ih
  · intro rd a h
    induction rd with
    | nil => rfl
    | cons e rd ih =>
      obtain ⟨elo, ehi, ety⟩ := e
      have h1 : ¬(elo ≤ a ∧ a < ehi) := h (elo, ehi, ety) (by simp)
      simp only [rdLookup, if_neg h1]
      exact ih (fun e he => h e (by simp [he]))

/-- Witness for C6 at a concrete layout: one region `[0x1000, 0x1100)` of
type BOOT; `0x1000` resolves to it, `0x1100` resolves as if the region
were absent, and `0x2000` resolves to `None`. -/
theorem C6_range_dict_witness :
    rdLookup [(0x1000, 0x1100, RType.label "BOOT")] 0x1000
        = some (RType.label "BOOT")
    ∧ rdLookup [(0x1000, 0x1100, RType.label "BOOT")] 0x1100
        = rdLookup [] 0x1100
    ∧ rdLookup [(0x1000, 0x1100, RType.label "BOOT")] 0x2000 = none :=
  ⟨C6_range_dict.1 [] [] 0x1000 0x1100 (RType.label "BOOT") (by simp) (by norm_num),
   C6_range_dict.2.1 [] [] 0x1000 0x1100 (RType.label "BOOT"),
   C6_range_dict.2.2 [(0x1000, 0x1100, RType.label "BOOT")] 0x2000 (by decide)⟩

/-!
Claim C7.
-/

/-- Claim C7: on every non-empty collection, timestamp normalization is
defined, idempotent, leaves the minimum start time at zero, and changes no
record's duration or latency (nor any key). -/
theorem C7_normalize_idempotent :
    ∀ (m : List (Int × ReadAccess)), m ≠ [] →
    ∃ out, do_normalize_timestamps m = some out
      ∧ do_normalize_timestamps out = some out
      ∧ minStart? out = some 0
      ∧ out.map (fun p => (p.1, p.2.duration, p.2.latency))
          = m.map (fun p => (p.1, p.2.duration, p.2.latency)) := by
  intro m hm
  obtain ⟨p, rest, rfl⟩ : ∃ p rest, m = p :: rest := by
    cases m with
    | nil => exact absurd rfl hm
    | cons p rest => exact ⟨p, rest, rfl⟩
  have hμ : minStart? (p :: rest)
      = some (rest.foldl (fun m' q' => min m' q'.2.start_time) p.2.start_time) := rfl
  have h1 := do_normalize_eq_of_min (p :: rest) _ hμ
  have hμ2 : minStart? (shiftAll
      (rest.foldl (fun m' q' => min m' q'.2.start_time) p.2.start_time)
      (p :: rest)) = some 0 := by
    rw [show shiftAll
          (rest.foldl (fun m' q' => min m' q'.2.start_time) p.2.start_time)
          (p :: rest)
        = (p.1, { p.2 with
            start_time := p.2.start_time -
              rest.foldl (fun m' q' => min m' q'.2.start_time) p.2.start_time,
            end_time := p.2.end_time -
              rest.foldl (fun m' q' => min m' q'.2.start_time) p.2.start_time })
          :: shiftAll
            (rest.foldl (fun m' q' => min m' q'.2.start_time) p.2.start_time)
            rest from rfl]
    simp only [minStart?]
    rw [foldl_min_shiftAll]
    simp
  have h2 := do_normalize_eq_of_min _ _ hμ2
  rw [shiftAll_zero] at h2
  exact ⟨_, h1, h2, hμ2, shiftAll_proj _ _⟩

/-- Witness for C7 at a one-record collection. -/
theorem C7_normalize_idempotent_witness :
    ∃ out, do_normalize_timestamps [(100, cAcc1)] = some out
      ∧ do_normalize_timestamps out = some out
      ∧ minStart? out = some 0
      ∧ out.map (fun p => (p.1, p.2.duration, p.2.latency))
          = [(100, cAcc1)].map (fun p => (p.1, p.2.duration, p.2.latency)) :=
  C7_normalize_idempotent [(100, cAcc1)] (by simp)

/-!
Small lemma kit for the association-list dictionary operations.
-/

section AssocLemmas

variable {κ α : Type} [DecidableEq κ]

theorem dlookup_nil (k : κ) : dlookup k ([] : List (κ × α)) = none := rfl

theorem dlookup_head (k : κ) (v : α) (rest : List (κ × α)) :
    dlookup k ((k, v) :: rest) = some v := by
  simp [dlookup]

theorem dlookup_cons_ne (k k' : κ) (v' : α) (rest : List (κ × α)) (h : k' ≠ k) :
    dlookup k ((k', v') :: rest) = dlookup k rest := by
  simp [dlookup, h]

theorem dlookup_append_right (k : κ) (l1 l2 : List (κ × α))
    (h : ∀ p ∈ l1, p.1 ≠ k) :
    dlookup k (l1 ++ l2) = dlookup k l2 := by
  induction l1 with
  | nil => rfl
  | cons p l1 ih =>
    obtain ⟨k', v'⟩ := p
    rw [List.cons_append, dlookup_cons_ne _ _ _ _ (h (k', v') (by simp))]
    exact ih (fun q hq => h q (by simp [hq]))

theorem dinsert_nil (k : κ) (v : α) : dinsert k v ([] : List (κ × α)) = [(k, v)] := rfl

theorem dinsert_head (k : κ) (v v' : α) (rest : List (κ × α)) :
    dinsert k v ((k, v') :: rest) = (k, v) :: rest := by
  simp [dinsert]

theorem dinsert_cons_ne (k k' : κ) (v : α) (v' : α) (rest : List (κ × α))
    (h : k' ≠ k) :
    dinsert k v ((k', v') :: rest) = (k', v') :: dinsert k v rest := by
  simp [dinsert, h]

theorem dinsert_append_fresh (k : κ) (v : α) (l : List (κ × α))
    (h : ∀ p ∈ l, p.1 ≠ k) :
    dinsert k v l = l ++ [(k, v)] := by
  induction l with
  | nil => rfl
  | cons p l ih =>
    obtain ⟨k', v'⟩ := p
    rw [dinsert_cons_ne _ _ _ _ _ (h (k', v') (by simp)), List.cons_append,
      ih (fun q hq => h q (by simp [hq]))]

theorem dreplace_head (k : κ) (v v' : α) (rest : List (κ × α)) :
    dreplace k v ((k, v') :: rest) = (k, v) :: rest := by
  simp [dreplace]

theorem dreplace_cons_ne (k k' : κ) (v v' : α) (rest : List (κ × α))
    (h : k' ≠ k) :
    dreplace k v ((k', v') :: rest) = (k', v') :: dreplace k v rest := by
  simp [dreplace, h]

theorem dreplace_append_right (k : κ) (v : α) (l1 l2 : List (κ × α))
    (h : ∀ p ∈ l1, p.1 ≠ k) :
    dreplace k v (l1 ++ l2) = l1 ++ dreplace k v l2 := by
  induction l1 with
  | nil => rfl
  | cons p l1 ih =>
    obtain ⟨k', v'⟩ := p
    rw [List.cons_append, dreplace_cons_ne _ _ _ _ _ (h (k', v') (by simp)),
      List.cons_append, ih (fun q hq => h q (by simp [hq]))]

theorem ddelete_head (k : κ) (v : α) (rest : List (κ × α)) :
    ddelete k ((k, v) :: rest) = rest := by
  simp [ddelete]

theorem ddelete_cons_ne (k k' : κ) (v' : α) (rest : List (κ × α)) (h : k' ≠ k) :
    ddelete k ((k', v') :: rest) = (k', v') :: ddelete k rest := by
  simp [ddelete, h]

theorem ddelete_append_right (k : κ) (l1 l2 : List (κ × α))
    (h : ∀ p ∈ l1, p.1 ≠ k) :
    ddelete k (l1 ++ l2) = l1 ++ ddelete k l2 := by
  induction l1 with
  | nil => rfl
  | cons p l1 ih =>
    obtain ⟨k', v'⟩ := p
    rw [List.cons_append, ddelete_cons_ne _ _ _ _ (h (k', v') (by simp)),
      List.cons_append, ih (fun q hq => h q (by simp [hq]))]

theorem dlookup_isSome_of_mem (p : κ × α) (l : List (κ × α)) (h : p ∈ l) :
    (dlookup p.1 l).isSome := by
  induction l with
  | nil => simp at h
  | cons q rest ih =>
    obtain ⟨k', v'⟩ := q
    by_cases he : k' = p.1
    · simp [dlookup, he]
    · rw [dlookup_cons_ne _ _ _ _ he]
      rcases List.mem_cons.mp h with rfl | hrest
      · exact absurd rfl he
      · exact ih hrest

theorem dlookup_dreplace_self (k : κ) (v : α) (l : List (κ × α))
    (h : (dlookup k l).isSome) : dlookup k (dreplace k v l) = some v := by
  induction l with
  | nil => simp [dlookup] at h
  | cons q rest ih =>
    obtain ⟨k', v'⟩ := q
    by_cases he : k' = k
    · subst he
      rw [dreplace_head, dlookup_head]
    · rw [dreplace_cons_ne _ _ _ _ _ he, dlookup_cons_ne _ _ _ _ he]
      rw [dlookup_cons_ne _ _ _ _ he] at h
      exact ih h

theorem dlookup_dreplace_ne (k k' : κ) (v : α) (l : List (κ × α)) (h : k' ≠ k) :
    dlookup k' (dreplace k v l) = dlookup k' l := by
  induction l with
  | nil => rfl
  | cons q rest ih =>
    obtain ⟨k0, v0⟩ := q
    by_cases he : k0 = k
    · subst he
      rw [dreplace_head, dlookup_cons_ne _ _ _ _ (Ne.symm h),
        dlookup_cons_ne _ _ _ _ (Ne.symm h)]
    · rw [dreplace_cons_ne _ _ _ _ _ he]
      by_cases he' : k0 = k'
      · subst he'
        rw [dlookup_head, dlookup_head]
      · rw [dlookup_cons_ne _ _ _ _ he', dlookup_cons_ne _ _ _ _ he']
        exact ih

theorem dlookup_ddelete_ne (k k' : κ) (l : List (κ × α)) (h : k' ≠ k) :
    dlookup k' (ddelete k l) = dlookup k' l := by
  induction l with
  | nil => rfl
  | cons q rest ih =>
    obtain ⟨k0, v0⟩ := q
    by_cases he : k0 = k
    · subst he
      rw [ddelete_head, dlookup_cons_ne _ _ _ _ (Ne.symm h)]
    · rw [ddelete_cons_ne _ _ _ _ he]
      by_cases he' : k0 = k'
      · subst he'
        rw [dlookup_head, dlookup_head]
      · rw [dlookup_cons_ne _ _ _ _ he', dlookup_cons_ne _ _ _ _ he']
        exact ih

theorem keys_dreplace (k : κ) (v : α) (l : List (κ × α)) :
    (dreplace k v l).map Prod.fst = l.map Prod.fst := by
  induction l with
  | nil => rfl
  | cons q rest ih =>
    obtain ⟨k0, v0⟩ := q
    by_cases he : k0 = k
    · subst he
      rw [dreplace_head]
      simp
    · rw [dreplace_cons_ne _ _ _ _ _ he]
      simp [ih]

theorem mem_ddelete_subset (k : κ) (q : κ × α) (l : List (κ × α))
    (h : q ∈ ddelete k l) : q ∈ l := by
  induction l with
  | nil => simp [ddelete] at h
  | cons p rest ih =>
    obtain ⟨k0, v0⟩ := p
    by_cases he : k0 = k
    · subst he
      rw [ddelete_head] at h
      exact List.mem_cons_of_mem _ h
    · rw [ddelete_cons_ne _ _ _ _ he] at h
      rcases List.mem_cons.mp h with rfl | h'
      · exact List.mem_cons_self _ _
      · exact List.mem_cons_of_mem _ (ih h')

theorem nodup_keys_ddelete (k : κ) (l : List (κ × α))
    (h : (l.map Prod.fst).Nodup) : ((ddelete k l).map Prod.fst).Nodup := by
  induction l with
  | nil => simp [ddelete]
  | cons p rest ih =>
    obtain ⟨k0, v0⟩ := p
    simp only [List.map_cons, List.nodup_cons] at h
    by_cases he : k0 = k
    · subst he
      rw [ddelete_head]
      exact h.2
    · rw [ddelete_cons_ne _ _ _ _ he]
      simp only [List.map_cons, List.nodup_cons]
      refine ⟨fun hm => h.1 ?_, ih h.2⟩
      obtain ⟨q, hq, hqk⟩ := List.mem_map.mp hm
      exact List.mem_map.mpr ⟨q, mem_ddelete_subset _ _ _ hq, hqk⟩

theorem mem_dreplace_nodup (k : κ) (v : α) (q : κ × α) (l : List (κ × α))
    (hnd : (l.map Prod.fst).Nodup) (h : q ∈ dreplace k v l) :
    q = (k, v) ∨ (q ∈ l ∧ q.1 ≠ k) := by
  induction l with
  | nil => simp [dreplace] at h
  | cons p rest ih =>
    obtain ⟨k0, v0⟩ := p
    simp only [List.map_cons, List.nodup_cons] at hnd
    by_cases he : k0 = k
    · subst he
      rw [dreplace_head] at h
      rcases List.mem_cons.mp h with rfl | h'
      · exact Or.inl rfl
      · refine Or.inr ⟨List.mem_cons_of_mem _ h', fun hqk => hnd.1 ?_⟩
        exact List.mem_map.mpr ⟨q, h', hqk.symm ▸ rfl⟩
    · rw [dreplace_cons_ne _ _ _ _ _ he] at h
      rcases List.mem_cons.mp h with rfl | h'
      · exact Or.inr ⟨List.mem_cons_self _ _, he⟩
      · rcases ih hnd.2 h' with h'' | ⟨hm, hk⟩
        · exact Or.inl h''
        · exact Or.inr ⟨List.mem_cons_of_mem _ hm, hk⟩

theorem mem_ddelete_nodup (k : κ) (q : κ × α) (l : List (κ × α))
    (hnd : (l.map Prod.fst).Nodup) (h : q ∈ ddelete k l) :
    q ∈ l ∧ q.1 ≠ k := by
  induction l with
  | nil => simp [ddelete] at h
  | cons p rest ih =>
    obtain ⟨k0, v0⟩ := p
    simp only [List.map_cons, List.nodup_cons] at hnd
    by_cases he : k0 = k
    · subst he
      rw [ddelete_head] at h
      refine ⟨List.mem_cons_of_mem _ h, fun hqk => hnd.1 ?_⟩
      exact List.mem_map.mpr ⟨q, h, hqk⟩
    · rw [ddelete_cons_ne _ _ _ _ he] at h
      rcases List.mem_cons.mp h with rfl | h'
      · exact ⟨List.mem_cons_self _ _, he⟩
      · obtain ⟨hm, hk⟩ := ih hnd.2 h'
        exact ⟨List.mem_cons_of_mem _ hm, hk⟩

end AssocLemmas

theorem pushCap_length_eq {α β : Type} (cap : Nat) (x : α) (y : β)
    (l1 : List α) (l2 : List β) (h : l1.length = l2.length) :
    (pushCap cap x l1).length = (pushCap cap y l2).length := by
  unfold pushCap
  rw [h]
  split <;> simp [h]

theorem mem_pushCap {α : Type} (cap : Nat) (x q : α) (l : List α)
    (h : q ∈ pushCap cap x l) : q ∈ l ∨ q = x := by
  unfold pushCap at h
  split at h
  · rcases List.mem_append.mp h with h' | h'
    · exact Or.inl h'
    · exact Or.inr (by simpa using h')
  · rcases List.mem_append.mp h with h' | h'
    · exact Or.inl (List.mem_of_mem_drop h')
    · exact Or.inr (by simpa using h')

/-!
Claims C5 and C10.
-/

theorem pairwise_key_two {α : Type} (x y : Int × α) (h : x.1 ≤ y.1) :
    List.Pairwise (fun p q : Int × α => p.1 ≤ q.1) [x, y] := by
  simp [h]

theorem pairwise_key_three {α : Type} (x y z : Int × α)
    (h12 : x.1 ≤ y.1) (h13 : x.1 ≤ z.1) (h23 : y.1 ≤ z.1) :
    List.Pairwise (fun p q : Int × α => p.1 ≤ q.1) [x, y, z] := by
  simp [h12, h13, h23]

theorem mergeRec_size (prev values : ReadAccess) (la : LastAccess) :
    (mergeRec prev values la).size = prev.size + values.size := by
  simp only [mergeRec]
  split <;> split <;> rfl

theorem mergeRec_start (prev values : ReadAccess) (la : LastAccess) :
    (mergeRec prev values la).start_time = prev.start_time := by
  simp only [mergeRec]
  split <;> split <;> rfl

theorem mergeRec_end (prev values : ReadAccess) (la : LastAccess) :
    (mergeRec prev values la).end_time = values.end_time := by
  simp only [mergeRec]
  split <;> split <;> rfl

theorem mergeRec_latency (prev values : ReadAccess) (la : LastAccess) :
    (mergeRec prev values la).latency = prev.latency := by
  simp only [mergeRec]
  split <;> split <;> rfl

theorem mergeRec_duration (prev values : ReadAccess) (la : LastAccess) :
    (mergeRec prev values la).duration = prev.duration + values.duration := by
  simp only [mergeRec]
  split <;> split <;> rfl

theorem mergeRec_address (prev values : ReadAccess) (la : LastAccess) :
    (mergeRec prev values la).address = prev.address := by
  simp only [mergeRec]
  split <;> split <;> rfl

theorem mergeRec_tag_c (prev values : ReadAccess) (la : LastAccess) :
    "[c]" ∈ (mergeRec prev values la).info := by
  simp only [mergeRec]
  split <;> rename_i h1 <;> split <;> rename_i h2 <;> simp_all

theorem mergeRec_tag_fuzzy (prev values : ReadAccess) (la : LastAccess)
    (h : values.duplicate_count ≠ la.duplicate_count) :
    "~" ∈ (mergeRec prev values la).info := by
  simp only [mergeRec]
  split <;> rename_i h1 <;> split <;> rename_i h2 <;> simp_all

/-- Claim C5: two start-time-adjacent accesses forming the whole collection
merge exactly when they resolve to the same type and the second starts no
later than the first one's end address; the merged record sums the sizes
and durations, keeps the first record's start, latency and address, takes
the second record's end time, is tagged `[c]`, and is additionally tagged
`~` when the two multiplicities differ. Two accesses of different types
are never merged. -/
theorem C5_collapse_pair :
    ∀ (a1 a2 : ReadAccess), a1.start_time < a2.start_time →
    ((a2.type_ = a1.type_ → a2.address ≤ a1.address + a1.size →
      ∃ m, collapse_entry_types [(a1.start_time, a1), (a2.start_time, a2)]
            = some [(a1.start_time, m)]
        ∧ m.size = a1.size + a2.size
        ∧ m.start_time = a1.start_time
        ∧ m.latency = a1.latency
        ∧ m.end_time = a2.end_time
        ∧ m.duration = a1.duration + a2.duration
        ∧ m.address = a1.address
        ∧ "[c]" ∈ m.info
        ∧ (a2.duplicate_count ≠ a1.duplicate_count → "~" ∈ m.info))
     ∧ (a2.type_ ≠ a1.type_ →
        collapse_entry_types [(a1.start_time, a1), (a2.start_time, a2)]
          = some [(a1.start_time, a1), (a2.start_time, a2)])) := by
  intro a1 a2 hlt
  have hsort : sortByKey [(a1.start_time, a1), (a2.start_time, a2)]
      = [(a1.start_time, a1), (a2.start_time, a2)] :=
    sortByKey_eq_self (pairwise_key_two _ _ (le_of_lt hlt))
  have hstep1 : collapseLoop [(a1.start_time, a1), (a2.start_time, a2)] none []
      = collapseLoop [(a2.start_time, a2)]
          (some ⟨a1.type_, a1.address, a1.size, a1.duplicate_count⟩) [a1] := rfl
  constructor
  · intro hty haddr
    have key : collapse_entry_types [(a1.start_time, a1), (a2.start_time, a2)]
        = some [((mergeRec a1 a2
              ⟨a1.type_, a1.address, a1.size, a1.duplicate_count⟩).start_time,
            mergeRec a1 a2 ⟨a1.type_, a1.address, a1.size, a1.duplicate_count⟩)] := by
      unfold collapse_entry_types
      rw [hsort, hstep1]
      simp only [collapseLoop]
      rw [if_pos (show a2.type_ = a1.type_ ∧ a2.address ≤ a1.address + a1.size
            from ⟨hty, haddr⟩)]
      rfl
    rw [mergeRec_start] at key
    exact ⟨_, key, mergeRec_size _ _ _, mergeRec_start _ _ _, mergeRec_latency _ _ _,
      mergeRec_end _ _ _, mergeRec_duration _ _ _, mergeRec_address _ _ _,
      mergeRec_tag_c _ _ _, fun hdc => mergeRec_tag_fuzzy _ _ _ hdc⟩
  · intro hty
    unfold collapse_entry_types
    rw [hsort, hstep1]
    simp only [collapseLoop]
    rw [if_neg (show ¬(a2.type_ = a1.type_ ∧ a2.address ≤ a1.address + a1.size)
          from fun h => hty h.1)]
    simp only [List.singleton_append, Option.map_some, Option.map_some',
      List.foldl_cons, List.foldl_nil, dinsert]
    rw [if_neg (show ¬(a1.start_time = a2.start_time)
          from fun h => absurd h (ne_of_lt hlt))]

/-- Witness for C5 at the concrete pair `cAcc1`, `cAcc2` (same type,
contiguous addresses, multiplicities 2 and 3). -/
theorem C5_collapse_pair_witness :
    ∃ m, collapse_entry_types [(cAcc1.start_time, cAcc1), (cAcc2.start_time, cAcc2)]
          = some [(cAcc1.start_time, m)]
      ∧ m.size = cAcc1.size + cAcc2.size
      ∧ m.start_time = cAcc1.start_time
      ∧ m.latency = cAcc1.latency
      ∧ m.end_time = cAcc2.end_time
      ∧ m.duration = cAcc1.duration + cAcc2.duration
      ∧ m.address = cAcc1.address
      ∧ "[c]" ∈ m.info
      ∧ (cAcc2.duplicate_count ≠ cAcc1.duplicate_count → "~" ∈ m.info) :=
  ((C5_collapse_pair cAcc1 cAcc2 (by decide)).1 (by decide) (by decide))

/-- Claim C10: the merge test of type collapsing compares the current
access against the immediately preceding input access, not against the
surviving merged record: after `a1` and `a2` merge, a third access inside
the merged record's span but beyond `a2.address + a2.size` is not merged. -/
theorem C10_collapse_uses_last_input :
    ∀ (a1 a2 a3 : ReadAccess),
      a1.start_time < a2.start_time → a2.start_time < a3.start_time →
      a2.type_ = a1.type_ → a3.type_ = a2.type_ →
      a2.address ≤ a1.address + a1.size →
      a2.address + a2.size < a3.address →
      a3.address ≤ a1.address + (a1.size + a2.size) →
      ∃ m, collapse_entry_types
            [(a1.start_time, a1), (a2.start_time, a2), (a3.start_time, a3)]
          = some [(a1.start_time, m), (a3.start_time, a3)]
        ∧ m.size = a1.size + a2.size
        ∧ m.address = a1.address := by
  intro a1 a2 a3 h12 h23 hty2 hty3 haddr2 hbeyond hwithin
  have hsort : sortByKey
      [(a1.start_time, a1), (a2.start_time, a2), (a3.start_time, a3)]
      = [(a1.start_time, a1), (a2.start_time, a2), (a3.start_time, a3)] :=
    sortByKey_eq_self (pairwise_key_three _ _ _ (le_of_lt h12)
      (le_of_lt (lt_trans h12 h23)) (le_of_lt h23))
  have hstep1 : collapseLoop
      [(a1.start_time, a1), (a2.start_time, a2), (a3.start_time, a3)] none []
      = collapseLoop [(a2.start_time, a2), (a3.start_time, a3)]
          (some ⟨a1.type_, a1.address, a1.size, a1.duplicate_count⟩) [a1] := rfl
  have key : collapse_entry_types
        [(a1.start_time, a1), (a2.start_time, a2), (a3.start_time, a3)]
      = (Option.map
          (fun collapsed => collapsed.foldl (fun m v => dinsert v.start_time v m) [])
          (collapseLoop [(a3.start_time, a3)]
            (some ⟨a2.type_, a2.address, a2.size, a2.duplicate_count⟩)
            [mergeRec a1 a2 ⟨a1.type_, a1.address, a1.size, a1.duplicate_count⟩])) := by
    unfold collapse_entry_types
    rw [hsort, hstep1]
    simp only [collapseLoop]
    rw [if_pos (show a2.type_ = a1.type_ ∧ a2.address ≤ a1.address + a1.size
          from ⟨hty2, haddr2⟩)]
    rfl
  have key2 : collapseLoop [(a3.start_time, a3)]
      (some ⟨a2.type_, a2.address, a2.size, a2.duplicate_count⟩)
      [mergeRec a1 a2 ⟨a1.type_, a1.address, a1.size, a1.duplicate_count⟩]
      = some [mergeRec a1 a2 ⟨a1.type_, a1.address, a1.size, a1.duplicate_count⟩, a3] := by
    simp only [collapseLoop]
    rw [if_neg (show ¬(a3.type_ = a2.type_ ∧ a3.address ≤ a2.address + a2.size)
          from fun h => absurd h.2 (not_le.mpr hbeyond))]
    rfl
  rw [key, key2]
  refine ⟨mergeRec a1 a2 ⟨a1.type_, a1.address, a1.size, a1.duplicate_count⟩, ?_,
    mergeRec_size a1 a2 ⟨a1.type_, a1.address, a1.size, a1.duplicate_count⟩,
    mergeRec_address a1 a2 ⟨a1.type_, a1.address, a1.size, a1.duplicate_count⟩⟩
  simp only [Option.map_some, Option.map_some', List.foldl_cons, List.foldl_nil,
    dinsert]
  rw [mergeRec_start]
  rw [if_neg (show ¬(a1.start_time = a3.start_time)
        from fun h => absurd h (ne_of_lt (lt_trans h12 h23)))]

/-- Witness for C10 at the concrete triple `cB1`, `cB2`, `cB3`. -/
theorem C10_collapse_uses_last_input_witness :
    ∃ m, collapse_entry_types
          [(cB1.start_time, cB1), (cB2.start_time, cB2), (cB3.start_time, cB3)]
        = some [(cB1.start_time, m), (cB3.start_time, cB3)]
      ∧ m.size = cB1.size + cB2.size
      ∧ m.address = cB1.address :=
  C10_collapse_uses_last_input cB1 cB2 cB3 (by decide) (by decide) (by decide)
    (by decide) (by decide) (by decide) (by decide)

/-!
Claim C9.
-/

/-- Claim C9: in overview reduction, a second access with the same
`(resolved type, coprocessor flag)` pair arriving with latency at most the
time-block threshold is folded into the first access's summary row, whose
address span becomes the union of the two spans; a third access of the
same pair arriving with latency above the threshold starts a new summary
row. Separately, the coprocessor annotation is added exactly to accesses
whose size is 0x40 (64) bytes. -/
theorem C9_overview_reduction :
    (∀ (t1 t2 t3 : Int) (a1 a2 a3 : ReadAccess),
      t1 < t2 → t2 < t3 →
      a2.type_ = a1.type_ → a3.type_ = a1.type_ →
      a2.info.contains "CCP" = a1.info.contains "CCP" →
      a3.info.contains "CCP" = a1.info.contains "CCP" →
      ¬(a2.latency.fdiv 1000 > TIME_BLOCK_LATENCY_THRESHOLD) →
      a3.latency.fdiv 1000 > TIME_BLOCK_LATENCY_THRESHOLD →
      get_overview_read_accesses [(t1, a1), (t2, a2), (t3, a3)]
        = some [(t1, ⟨a1, min a1.address a2.address,
                      max (a1.address + a1.size) (a2.address + a2.size)⟩),
                (t3, ⟨a3, a3.address, a3.address + a3.size⟩)])
    ∧ (∀ v : ReadAccess, "CCP" ∉ v.info →
        ("CCP" ∈ (ccpTag v).info ↔ v.size = 0x40)) := by
  constructor
  · intro t1 t2 t3 a1 a2 a3 h12 h23 hty2 hty3 hcc2 hcc3 hl2 hl3
    have hsort : sortByKey [(t1, a1), (t2, a2), (t3, a3)]
        = [(t1, a1), (t2, a2), (t3, a3)] :=
      sortByKey_eq_self (pairwise_key_three _ _ _ (le_of_lt h12)
        (le_of_lt (lt_trans h12 h23)) (le_of_lt h23))
    unfold get_overview_read_accesses
    rw [hsort]
    rw [ovLoop]
    try dsimp only
    rw [ite_self, dlookup_nil]
    try dsimp only
    rw [dinsert_nil, dinsert_nil]
    rw [ovLoop]
    try dsimp only
    rw [if_neg hl2, hty2, hcc2, dlookup_head]
    try dsimp only
    rw [dlookup_head]
    try dsimp only
    rw [dreplace_head]
    rw [ovLoop]
    try dsimp only
    rw [if_pos hl3, dlookup_nil]
    try dsimp only
    rw [dinsert_nil,
      dinsert_cons_ne _ _ _ _ _ (show t1 ≠ t3 from ne_of_lt (lt_trans h12 h23)),
      dinsert_nil]
    rfl
  · intro v hv
    unfold ccpTag
    split
    · rename_i h
      simp [h]
    · rename_i h
      simp [hv, h]

/-- Witness for C9 at the concrete records `cOv1`, `cOv2`, `cOv3`
(latencies 0, 10µs and 100µs) and a 64-byte access for the coprocessor
conjunct. -/
theorem C9_overview_reduction_witness :
    get_overview_read_accesses [(0, cOv1), (20, cOv2), (50, cOv3)]
      = some [(0, ⟨cOv1, min cOv1.address cOv2.address,
                   max (cOv1.address + cOv1.size) (cOv2.address + cOv2.size)⟩),
              (50, ⟨cOv3, cOv3.address, cOv3.address + cOv3.size⟩)]
    ∧ ("CCP" ∈ (ccpTag cB1).info ↔ cB1.size = 0x40) :=
  ⟨C9_overview_reduction.1 0 20 50 cOv1 cOv2 cOv3 (by decide) (by decide)
      (by decide) (by decide) (by decide) (by decide) (by decide) (by decide),
   C9_overview_reduction.2 cB1 (by decide)⟩

/-!
Lemmas about the data-byte scan.
-/

theorem cdb_aux_ge (s : List Nat) (base : Nat) :
    ∀ (fuel d : Nat), d ≤ count_data_bytes_aux s base fuel d := by
  intro fuel
  induction fuel with
  | zero => intro d; exact le_refl d
  | succ fuel ih =>
    intro d
    unfold count_data_bytes_aux
    match h : s[base + d]? with
    | none => exact le_refl d
    | some b =>
      dsimp only
      by_cases hb : isKnownOpcode b
      · rw [if_pos hb]
      · rw [if_neg hb]
        exact le_trans (Nat.le_succ d) (ih (d + 1))

theorem count_data_bytes_pos (base : Nat) (s : List Nat) :
    1 ≤ count_data_bytes base s :=
  cdb_aux_ge s base (s.length + 1) 1

theorem winbond_list_size_pos : ∀ p ∈ WINBOND_LIST, 1 ≤ p.2.size := by decide

theorem winbond_size_pos (b : Nat) (w : WInstr)
    (h : WINBOND_INSTRUCTIONS b = some w) : 1 ≤ w.size := by
  unfold WINBOND_INSTRUCTIONS at h
  match hf : WINBOND_LIST.find? (fun p => p.1 == b) with
  | none => rw [hf] at h; exact absurd h (by simp)
  | some p =>
    rw [hf] at h
    simp only [Option.map_some, Option.map_some', Option.some.injEq] at h
    have hp := List.mem_of_find?_eq_some hf
    rw [← h]
    exact winbond_list_size_pos p hp

theorem cdb_aux_stop (s : List Nat) (base : Nat) :
    ∀ (fuel d k : Nat), d ≤ k → k - d < fuel →
    (∀ j, d ≤ j → j < k →
      ∃ b, s[base + j]? = some b ∧ isKnownOpcode b = false) →
    (∃ b, s[base + k]? = some b ∧ isKnownOpcode b = true) →
    count_data_bytes_aux s base fuel d = k := by
  intro fuel
  induction fuel with
  | zero => intro d k hdk hfuel _ _; omega
  | succ fuel ih =>
    intro d k hdk hfuel hmid hk
    rcases Nat.eq_or_lt_of_le hdk with rfl | hlt
    · obtain ⟨b, hb, hbo⟩ := hk
      unfold count_data_bytes_aux
      rw [hb]
      dsimp only
      rw [if_pos hbo]
    · obtain ⟨b, hb, hbo⟩ := hmid d (le_refl d) hlt
      unfold count_data_bytes_aux
      rw [hb]
      dsimp only
      rw [if_neg (by rw [hbo]; exact Bool.false_ne_true)]
      exact ih (d + 1) k hlt (by omega) (fun j h1 h2 => hmid j (by omega) h2) hk

theorem count_data_bytes_stop (s : List Nat) (base k : Nat) (h1 : 1 ≤ k)
    (hmid : ∀ j, 1 ≤ j → j < k →
      ∃ b, s[base + j]? = some b ∧ isKnownOpcode b = false)
    (hk : ∃ b, s[base + k]? = some b ∧ isKnownOpcode b = true) :
    count_data_bytes base s = k := by
  have hklen : base + k < s.length := by
    obtain ⟨b, hb, _⟩ := hk
    exact (List.getElem?_eq_some.mp hb).1
  exact cdb_aux_stop s base (s.length + 1) 1 k h1 (by omega) hmid hk

theorem cdb_one (s : List Nat) (base : Nat) (h : s.length ≤ base + 1) :
    count_data_bytes base s = 1 := by
  unfold count_data_bytes count_data_bytes_aux
  rw [List.getElem?_eq_none (by omega)]

theorem cdb_aux_le (s : List Nat) (base : Nat) :
    ∀ (fuel d : Nat), base + d ≤ s.length → s.length < fuel + (base + d) →
    base + count_data_bytes_aux s base fuel d ≤ s.length := by
  intro fuel
  induction fuel with
  | zero => intro d h1 h2; omega
  | succ fuel ih =>
    intro d h1 h2
    unfold count_data_bytes_aux
    match hb : s[base + d]? with
    | none => exact h1
    | some b =>
      dsimp only
      have hlt : base + d < s.length := (List.getElem?_eq_some.mp hb).1
      by_cases hbo : isKnownOpcode b
      · rw [if_pos hbo]; omega
      · rw [if_neg hbo]
        exact ih (d + 1) (by omega) (by omega)

theorem count_data_bytes_le (s : List Nat) (base : Nat) (h : base < s.length) :
    base + count_data_bytes base s ≤ s.length := by
  exact cdb_aux_le s base (s.length + 1) 1 (by omega) (by omega)

/-!
Claim C8.
-/

theorem instrConsume_pos (mosi : List Nat) (index : Nat) (h : index < mosi.length) :
    1 ≤ instrConsume mosi index h := by
  unfold instrConsume
  dsimp only
  split
  · match hw : WINBOND_INSTRUCTIONS mosi[index] with
    | none => exact le_refl 1
    | some w =>
      exact le_trans (winbond_size_pos _ _ hw) (Nat.le_add_right _ _)
  · match hw : WINBOND_INSTRUCTIONS mosi[index] with
    | none => exact le_refl 1
    | some w =>
      exact le_trans (winbond_size_pos _ _ hw) (Nat.le_add_right _ _)

theorem consumptionsFrom_sum_ge (mosi : List Nat) :
    ∀ (fuel index : Nat), mosi.length < index + fuel →
    mosi.length ≤ index + (consumptionsFrom mosi fuel index).sum := by
  intro fuel
  induction fuel with
  | zero => intro index h; simpa [consumptionsFrom] using by omega
  | succ fuel ih =>
    intro index h
    unfold consumptionsFrom
    split
    · rename_i hidx
      have hpos := instrConsume_pos mosi index hidx
      have := ih (index + instrConsume mosi index hidx) (by omega)
      simp only [List.sum_cons]
      omega
    · rename_i hidx
      simp only [List.sum_nil]
      omega

theorem consumptionsFrom_mem_pos (mosi : List Nat) :
    ∀ (fuel index : Nat), ∀ c ∈ consumptionsFrom mosi fuel index, 1 ≤ c := by
  intro fuel
  induction fuel with
  | zero => intro index c hc; simp [consumptionsFrom] at hc
  | succ fuel ih =>
    intro index c hc
    unfold consumptionsFrom at hc
    split at hc
    · rename_i hidx
      rcases List.mem_cons.mp hc with rfl | hc'
      · exact instrConsume_pos mosi index hidx
      · exact ih _ c hc'
    · simp at hc

/-- Claim C8 (amended): the per-instruction consumption counts of the
single-line scan are each at least one and tile the stream contiguously
from the start, so their sum is at least — but, when the final
instruction's frame overruns the stream end, not equal to — the total
sample count. -/
theorem C8_consumption_accounting :
    ∀ (mosi : List Nat),
      mosi.length ≤ (consumptions mosi).sum
      ∧ (∀ c ∈ consumptions mosi, 1 ≤ c) := by
  intro mosi
  constructor
  · have := consumptionsFrom_sum_ge mosi (mosi.length + 1) 0 (by omega)
    simpa [consumptions] using this
  · intro c hc
    exact consumptionsFrom_mem_pos mosi (mosi.length + 1) 0 c hc

/-- Witness for C8 at the concrete capture `exC8M`. -/
theorem C8_consumption_accounting_witness :
    exC8M.length ≤ (consumptions exC8M).sum ∧ (1 : Nat) ≤ 5 :=
  ⟨(C8_consumption_accounting exC8M).1,
   (C8_consumption_accounting exC8M).2 5 (by decide)⟩

/-- Counterexample for C8 as stated: `exC8M` is a capture consisting of one
complete Read Data frame (4-byte header and data bytes 0xFF 0x02), yet the
decoded consumption total is 11, not the sample count 6 — the data byte
0x02 is re-decoded as a Page Program instruction whose frame overruns the
stream end. -/
theorem C8_counterexample :
    consumptions exC8M = [5, 6]
    ∧ (consumptions exC8M).sum ≠ exC8M.length := by decide

/-!
Claim C2.
-/

/-- Claim C2 (amended): a 20-sample single-line capture with opcode 0x03 at
sample 0, address bytes 0x00 0x01 0x00 at samples 1-3, no catalog opcode at
samples 4-18, and a catalog opcode other than the two read opcodes at
sample 19, decodes to exactly one ReadAccess with address 0x000100, size
15 and instr_index 0 (the data-byte scan counts samples 5-19, stopping at
the opcode at sample 19). -/
theorem C2_scenario :
    ∀ (rd : RangeDict RType) (m : Nat → Nat) (t : Nat → Int),
    m 0 = 0x03 → m 1 = 0x00 → m 2 = 0x01 → m 3 = 0x00 →
    (∀ i ∈ List.range' 4 15, isKnownOpcode (m i) = false) →
    isKnownOpcode (m 19) = true → m 19 ≠ 0x03 → m 19 ≠ 0x0B →
    find_read_accesses_mosi rd ((List.range 20).map t) ((List.range 20).map m)
      = some [(t 0, ⟨0, t 0, t 15, t 15 - t 0, t 0, 0x000100, 15,
                     rdLookup rd 0x000100, [], none⟩)] := by
  intro rd m t h0 h1 h2 h3 hmid h19 h19a h19b
  have hMlen : ((List.range 20).map m).length = 20 := by simp
  have hTget : ∀ j, j < 20 → ((List.range 20).map t)[j]? = some (t j) := by
    intro j hj
    simp [List.getElem?_map, List.getElem?_range, hj]
  have hMget : ∀ j, j < 20 → ((List.range 20).map m)[j]? = some (m j) := by
    intro j hj
    simp [List.getElem?_map, List.getElem?_range, hj]
  have hdb : count_data_bytes 4 ((List.range 20).map m) = 15 := by
    apply count_data_bytes_stop _ _ _ (by norm_num)
    · intro j hj1 hj2
      refine ⟨m (4 + j), hMget (4 + j) (by omega), ?_⟩
      exact hmid (4 + j) (by
        rw [List.mem_range'_1]
        omega)
    · refine ⟨m 19, ?_, h19⟩
      rw [show (4 + 15 : Nat) = 19 from rfl]
      exact hMget 19 (by norm_num)
  have hw3 : WINBOND_INSTRUCTIONS 0x03 = some ⟨"Read Data", 4, true⟩ := by decide
  have hslice : ((((List.range 20).map m).drop 1).take 3) = [m 1, m 2, m 3] := by
    rw [show List.range 20 = 0 :: 1 :: 2 :: 3 :: List.range' 4 16 from by decide]
    rfl
  obtain ⟨w, hw⟩ : ∃ w, WINBOND_INSTRUCTIONS (m 19) = some w :=
    Option.isSome_iff_exists.mp h19
  have hsz : 1 ≤ w.size := winbond_size_pos _ _ hw
  have hcdb1 : count_data_bytes (19 + w.size) ((List.range 20).map m) = 1 :=
    cdb_one _ _ (by rw [hMlen]; omega)
  unfold find_read_accesses_mosi find_read_accesses_mosi_traced
  rw [hTget 0 (by norm_num)]
  try dsimp only
  rw [hMlen]
  rw [findA]
  rw [dif_pos (show 0 < ((List.range 20).map m).length by rw [hMlen]; norm_num)]
  try dsimp only
  simp only [List.getElem_map, List.getElem_range]
  rw [h0]
  rw [if_pos (show (0x03 : Nat) = 0x03 ∨ (0x03 : Nat) = 0x0B from Or.inl rfl)]
  rw [hw3]
  try dsimp only
  simp only [Nat.zero_add]
  rw [hdb, hTget 0 (by norm_num), hTget 15 (by norm_num)]
  try dsimp only
  rw [hslice, h1, h2, h3]
  rw [show pyBytes? [0, 1, 0] = some [0, 1, 0] from by decide]
  try dsimp only
  rw [show bytesToNatBE [0, 1, 0] = 0x000100 from by decide]
  rw [dinsert_nil]
  rw [show (4 + 15 : Nat) = 19 from rfl]
  rw [show (20 : Nat) = 19 + 1 from rfl]
  rw [findA]
  rw [dif_pos (show 19 < ((List.range 20).map m).length by rw [hMlen]; norm_num)]
  try dsimp only
  simp only [List.getElem_map, List.getElem_range]
  rw [if_neg (show ¬(m 19 = 0x03 ∨ m 19 = 0x0B) from fun h => h.elim h19a h19b)]
  rw [hw]
  try dsimp only
  rw [hcdb1]
  by_cases hexp : w.expects_data
  · rw [if_pos hexp]
    rw [show (19 : Nat) = 18 + 1 from rfl]
    rw [findA]
    rw [dif_neg (show ¬(19 + w.size + 1 < ((List.range 20).map m).length) by
      rw [hMlen]; omega)]
    try dsimp only
    rw [sub_zero]
    rfl
  · rw [if_neg hexp]
    rw [show (19 : Nat) = 18 + 1 from rfl]
    rw [findA]
    rw [dif_neg (show ¬(19 + w.size + 0 < ((List.range 20).map m).length) by
      rw [hMlen]; omega)]
    try dsimp only
    rw [sub_zero]
    rfl

/-- Witness for C2 at the concrete capture with filler byte 0xFF and final
sample 0x06 (Write Enable). -/
theorem C2_scenario_witness :
    find_read_accesses_mosi []
        ((List.range 20).map (fun i => (i : Int)))
        ((List.range 20).map (fun i =>
          if i = 0 then 0x03 else if i = 1 then 0 else if i = 2 then 1
          else if i = 3 then 0 else if i = 19 then 0x06 else 0xFF))
      = some [(0, ⟨0, 0, 15, 15, 0, 0x000100, 15, none, [], none⟩)] := by
  have h := C2_scenario []
    (fun i => if i = 0 then 0x03 else if i = 1 then 0 else if i = 2 then 1
      else if i = 3 then 0 else if i = 19 then 0x06 else 0xFF)
    (fun i => (i : Int))
    (by decide) (by decide) (by decide) (by decide) (by decide) (by decide)
    (by decide) (by decide)
  exact h.trans (by decide)

/-- Counterexample for C2 as stated: the capture `exC2M` satisfies the
claim's constraints (read opcode, the given address bytes, no other
catalog opcode before sample 19 — sample 19 is 0xFF, not an opcode), yet
the single emitted ReadAccess has size 16, not 15: the data-byte scan
caps at the stream end instead of stopping at sample 19. -/
theorem C2_counterexample :
    (find_read_accesses_mosi [] exC2T exC2M).map
        (fun l => l.map (fun p => (p.1, p.2.address, p.2.size, p.2.instr_index)))
      = some [(0, 0x000100, 16, 0)]
    ∧ (16 : Nat) ≠ 15 := by decide

/-!
Claim C4.
-/

theorem findA_trace_spec (rd : RangeDict RType) (time : List Int) (mosi : List Nat) :
    ∀ (fuel i : Nat) (st : StateA) (res : List (Int × ReadAccess))
      (tr : List (Nat × ReadAccess)),
    findA rd time mosi fuel i st = some (res, tr) →
    ∀ c a, (c, a) ∈ tr →
    ∃ op w, mosi[c]? = some op ∧ (op = 0x03 ∨ op = 0x0B)
      ∧ WINBOND_INSTRUCTIONS op = some w
      ∧ time[c]? = some a.start_time
      ∧ time[c + count_data_bytes (c + w.size) mosi]? = some a.end_time
      ∧ a.size = count_data_bytes (c + w.size) mosi := by
  intro fuel
  induction fuel with
  | zero =>
    intro i st res tr h c a hmem
    exact absurd h (by simp [findA])
  | succ fuel ih =>
    intro i st res tr h c a hmem
    rw [findA] at h
    by_cases hidx : i < mosi.length
    · rw [dif_pos hidx] at h
      dsimp only at h
      split at h
      · rename_i hop
        split at h
        · exact absurd h (by simp)
        · rename_i w hw
          split at h
          · rename_i start_time end_time hst hen
            split at h
            · exact absurd h (by simp)
            · rename_i addrBytes hpb
              rw [Option.map_eq_some'] at h
              obtain ⟨pr, hrec, hpr⟩ := h
              obtain ⟨rfl, rfl⟩ := Prod.mk.injEq .. |>.mp hpr
              rcases List.mem_cons.mp hmem with heq | htail
              · obtain ⟨rfl, rfl⟩ := Prod.mk.injEq .. |>.mp heq
                exact ⟨mosi[c], w, List.getElem?_eq_getElem hidx, hop, hw,
                  hst, hen, rfl⟩
              · exact ih _ _ _ pr.2 hrec c a htail
          · rename_i hfall
            exact absurd h (by simp)
      · rename_i hop
        split at h
        · rename_i w hw
          exact ih _ _ _ _ h c a hmem
        · exact ih _ _ _ _ h c a hmem
    · rw [dif_neg hidx] at h
      simp only [Option.some.injEq, Prod.mk.injEq] at h
      obtain ⟨rfl, rfl⟩ := h
      simp at hmem

/-- Claim C4 (amended): every ReadAccess emitted by the single-line scan
at cursor `c` is a read instruction whose start time is the timestamp at
`c` and whose end time is the timestamp at `c + data_length` — the code
(psptrace.py line 398) indexes `data['time'][index + data_bytes]`,
omitting the frame length the specification includes — with size equal to
the counted data length. The untraced decoder result is the projection of
the traced one. -/
theorem C4_read_timing :
    (∀ (rd : RangeDict RType) (time : List Int) (mosi : List Nat),
      find_read_accesses_mosi rd time mosi
        = (find_read_accesses_mosi_traced rd time mosi).map Prod.fst)
    ∧ (∀ (rd : RangeDict RType) (time : List Int) (mosi : List Nat)
        (p : List (Int × ReadAccess) × List (Nat × ReadAccess)),
      find_read_accesses_mosi_traced rd time mosi = some p →
      ∀ c a, (c, a) ∈ p.2 →
      ∃ op w, mosi[c]? = some op ∧ (op = 0x03 ∨ op = 0x0B)
        ∧ WINBOND_INSTRUCTIONS op = some w
        ∧ time[c]? = some a.start_time
        ∧ time[c + count_data_bytes (c + w.size) mosi]? = some a.end_time
        ∧ a.size = count_data_bytes (c + w.size) mosi) := by
  constructor
  · intro rd time mosi
    rfl
  · intro rd time mosi p h c a hmem
    unfold find_read_accesses_mosi_traced at h
    split at h
    · exact absurd h (by simp)
    · exact findA_trace_spec rd time mosi _ _ _ _ _ h c a hmem

/-- Witness for C4 at the concrete capture `exC4M`, whose single emitted
access sits at cursor 0 with start time 0 and end time 4. -/
theorem C4_read_timing_witness :
    ∃ op w, exC4M[0]? = some op ∧ (op = 0x03 ∨ op = 0x0B)
      ∧ WINBOND_INSTRUCTIONS op = some w
      ∧ exC4T[0]? = some (0 : Int)
      ∧ exC4T[0 + count_data_bytes (0 + w.size) exC4M]? = some (4 : Int)
      ∧ (4 : Nat) = count_data_bytes (0 + w.size) exC4M :=
  C4_read_timing.2 [] exC4T exC4M
    ([(0, ⟨0, 0, 4, 4, 0, 0x000100, 4, none, [], none⟩)],
     [(0, ⟨0, 0, 4, 4, 0, 0x000100, 4, none, [], none⟩)])
    (by decide) 0 ⟨0, 0, 4, 4, 0, 0x000100, 4, none, [], none⟩ (by decide)

/-- Counterexample for C4 as stated: on `exC4M` the emitted access's end
time is the timestamp at position cursor + data_length = 4 (value 4), not
the timestamp at cursor + frame_length + data_length = 8 (value 8). -/
theorem C4_counterexample :
    (find_read_accesses_mosi [] exC4T exC4M).map
        (fun l => l.map (fun p => (p.1, p.2.end_time)))
      = some [(0, 4)]
    ∧ count_data_bytes (0 + 4) exC4M = 4
    ∧ exC4T[0 + 4 + 4]? = some 8
    ∧ (4 : Int) ≠ 8 := by decide

/-!
Claim C1.
-/

theorem findA_isSome (rd : RangeDict RType) (time : List Int) (mosi : List Nat)
    (hb : ∀ b ∈ mosi, b < 256)
    (hlen : time.length = mosi.length)
    (hlast : ∀ op, mosi.getLast? = some op → ¬(op = 0x03 ∨ op = 0x0B)) :
    ∀ (fuel i : Nat) (st : StateA), mosi.length < i + fuel → 0 < fuel →
    (findA rd time mosi fuel i st).isSome := by
  intro fuel
  induction fuel with
  | zero => intro i st h1 h2; omega
  | succ fuel ih =>
    intro i st h1 _
    rw [findA]
    by_cases hidx : i < mosi.length
    · rw [dif_pos hidx]
      dsimp only
      have hpb : pyBytes? ((mosi.drop (i + 1)).take 3)
          = some ((mosi.drop (i + 1)).take 3) := by
        unfold pyBytes?
        rw [if_pos]
        rw [List.all_eq_true]
        intro b hbmem
        have : b ∈ mosi := List.mem_of_mem_drop (List.mem_of_mem_take hbmem)
        simp [hb b this]
      split
      · rename_i hop
        have hlast' : ¬(i + 1 = mosi.length) := by
          intro heq
          apply hlast mosi[i]
          · rw [List.getLast?_eq_getElem?]
            rw [show mosi.length - 1 = i by omega]
            exact List.getElem?_eq_getElem hidx
          · exact hop
        rcases hop with h3 | hB
        · rw [h3, show WINBOND_INSTRUCTIONS 0x03
              = some ⟨"Read Data", 4, true⟩ from by decide]
          dsimp only
          have hdbpos := count_data_bytes_pos (i + 4) mosi
          have hend : i + count_data_bytes (i + 4) mosi < time.length := by
            by_cases hc : i + 4 < mosi.length
            · have := count_data_bytes_le mosi (i + 4) hc
              omega
            · have := cdb_one mosi (i + 4) (by omega)
              omega
          rw [List.getElem?_eq_getElem (show i < time.length by omega),
            List.getElem?_eq_getElem hend, hpb]
          dsimp only
          rw [Option.isSome_map']
          exact ih _ _ (by omega) (by omega)
        · rw [hB, show WINBOND_INSTRUCTIONS 0x0B
              = some ⟨"Fast Read", 5, true⟩ from by decide]
          dsimp only
          have hdbpos := count_data_bytes_pos (i + 5) mosi
          have hend : i + count_data_bytes (i + 5) mosi < time.length := by
            by_cases hc : i + 5 < mosi.length
            · have := count_data_bytes_le mosi (i + 5) hc
              omega
            · have := cdb_one mosi (i + 5) (by omega)
              omega
          rw [List.getElem?_eq_getElem (show i < time.length by omega),
            List.getElem?_eq_getElem hend, hpb]
          dsimp only
          rw [Option.isSome_map']
          exact ih _ _ (by omega) (by omega)
      · split
        · rename_i w hw
          have hsz := winbond_size_pos _ _ hw
          have hdb0 : i + 1 ≤ i + w.size +
              (if w.expects_data then count_data_bytes (i + w.size) mosi else 0) := by
            have : 0 ≤ if w.expects_data then count_data_bytes (i + w.size) mosi
                else 0 := Nat.zero_le _
            omega
          exact ih _ _ (by omega) (by omega)
        · exact ih _ _ (by omega) (by omega)
    · rw [dif_neg hidx]
      simp

theorem aggFinish_isSome (agg : List (Int × ReadAccess))
    (h : ∀ q ∈ agg, q.2.duplicate_count.isSome) : (aggFinish agg).isSome := by
  induction agg with
  | nil => simp [aggFinish]
  | cons q rest ih =>
    obtain ⟨t, v⟩ := q
    have hv := h (t, v) (List.mem_cons_self _ _)
    obtain ⟨c, hc⟩ := Option.isSome_iff_exists.mp hv
    rw [aggFinish]
    dsimp only at hc ⊢
    rw [hc]
    dsimp only
    rw [Option.isSome_map']
    exact ih (fun q hq => h q (List.mem_cons_of_mem _ hq))

theorem aggLoop_counts :
    ∀ (items : List (Int × ReadAccess)) (ra : List Nat) (ro : List Int)
      (agg : List (Int × ReadAccess)),
    ra.length = ro.length →
    (agg.map Prod.fst).Nodup →
    (∀ t0 ∈ ro, ∃ v, dlookup t0 agg = some v ∧ v.duplicate_count.isSome) →
    (∀ p ∈ items, (dlookup p.1 agg).isSome) →
    (∀ t0 ∈ ro, ∀ p ∈ items, t0 ≠ p.1) →
    (items.map Prod.fst).Nodup →
    (∀ q ∈ agg, q.2.duplicate_count.isSome ∨ ∃ p ∈ items, p.1 = q.1) →
    ∃ agg', aggLoop items ra ro agg = some agg'
      ∧ ∀ q ∈ agg', q.2.duplicate_count.isSome := by
  intro items
  induction items with
  | nil =>
    intro ra ro agg _ _ _ _ _ _ hvi
    exact ⟨agg, rfl, fun q hq => (hvi q hq).resolve_right (by simp)⟩
  | cons tv rest ih =>
    obtain ⟨t, v⟩ := tv
    intro ra ro agg hlen hnda hro hitems hdisj hnditems hvi
    have hndrest : (rest.map Prod.fst).Nodup := by
      simpa using hnditems.of_cons
    have htrest : ∀ p ∈ rest, t ≠ p.1 := by
      intro p hp heq
      simp only [List.map_cons, List.nodup_cons] at hnditems
      exact hnditems.1 (List.mem_map.mpr ⟨p, hp, heq.symm⟩)
    rw [aggLoop]
    dsimp only
    by_cases hmem : v.address ∈ ra
    · rw [if_neg (not_not_intro hmem)]
      have hidx : ra.indexOf v.address < ra.length :=
        List.indexOf_lt_length.mpr hmem
      have hidx' : ra.indexOf v.address < ro.length := hlen ▸ hidx
      rw [List.getElem?_eq_getElem hidx']
      dsimp only
      have horigmem : ro[ra.indexOf v.address] ∈ ro := List.getElem_mem _
      obtain ⟨ov, hov, hovc⟩ := hro _ horigmem
      rw [hov]
      dsimp only
      obtain ⟨c, hc⟩ := Option.isSome_iff_exists.mp hovc
      rw [hc]
      dsimp only
      have htne : ro[ra.indexOf v.address] ≠ t :=
        hdisj _ horigmem (t, v) (List.mem_cons_self _ _)
      by_cases hlt : c < MAXIMUM_AGGREGATION_COUNT
      · rw [if_pos hlt]
        apply ih
        · exact hlen
        · apply nodup_keys_ddelete
          rw [keys_dreplace]
          exact hnda
        · intro t0 ht0
          have ht0t : t0 ≠ t := hdisj t0 ht0 (t, v) (List.mem_cons_self _ _)
          rw [dlookup_ddelete_ne _ _ _ ht0t]
          by_cases he : t0 = ro[ra.indexOf v.address]
          · subst he
            rw [dlookup_dreplace_self _ _ _ (by simp [hov])]
            exact ⟨_, rfl, by simp⟩
          · rw [dlookup_dreplace_ne _ _ _ _ he]
            exact hro t0 ht0
        · intro p hp
          rw [dlookup_ddelete_ne _ _ _ (Ne.symm (htrest p hp)),
            dlookup_dreplace_ne _ _ _ _
              (Ne.symm (hdisj _ horigmem p (List.mem_cons_of_mem _ hp)))]
          exact hitems p (List.mem_cons_of_mem _ hp)
        · intro t0 ht0 p hp
          exact hdisj t0 ht0 p (List.mem_cons_of_mem _ hp)
        · exact hndrest
        · intro q hq
          have hnd2 : ((dreplace ro[ra.indexOf v.address]
              { ov with duplicate_count := some (c + 1) } agg).map Prod.fst).Nodup := by
            rw [keys_dreplace]
            exact hnda
          obtain ⟨hq1, hq2⟩ := mem_ddelete_nodup _ _ _ hnd2 hq
          rcases mem_dreplace_nodup _ _ _ _ hnda hq1 with rfl | ⟨hq3, hq4⟩
          · exact Or.inl (by simp)
          · rcases hvi q hq3 with hcnt | ⟨p, hp, hpq⟩
            · exact Or.inl hcnt
            · rcases List.mem_cons.mp hp with rfl | hp'
              · exact absurd hpq.symm hq2
              · exact Or.inr ⟨p, hp', hpq⟩
      · rw [if_neg hlt]
        apply ih
        · rw [List.length_eraseIdx_of_lt hidx, List.length_eraseIdx_of_lt hidx',
            hlen]
        · exact nodup_keys_ddelete _ _ hnda
        · intro t0 ht0
          have ht0' : t0 ∈ ro := (List.eraseIdx_sublist ro _).subset ht0
          have ht0t : t0 ≠ t := hdisj t0 ht0' (t, v) (List.mem_cons_self _ _)
          rw [dlookup_ddelete_ne _ _ _ ht0t]
          exact hro t0 ht0'
        · intro p hp
          rw [dlookup_ddelete_ne _ _ _ (Ne.symm (htrest p hp))]
          exact hitems p (List.mem_cons_of_mem _ hp)
        · intro t0 ht0 p hp
          exact hdisj t0 ((List.eraseIdx_sublist ro _).subset ht0) p
            (List.mem_cons_of_mem _ hp)
        · exact hndrest
        · intro q hq
          obtain ⟨hq1, hq2⟩ := mem_ddelete_nodup _ _ _ hnda hq
          rcases hvi q hq1 with hcnt | ⟨p, hp, hpq⟩
          · exact Or.inl hcnt
          · rcases List.mem_cons.mp hp with rfl | hp'
            · exact absurd hpq.symm hq2
            · exact Or.inr ⟨p, hp', hpq⟩
    · rw [if_pos hmem]
      obtain ⟨cur, hcur⟩ := Option.isSome_iff_exists.mp
        (hitems (t, v) (List.mem_cons_self _ _))
      rw [hcur]
      dsimp only
      apply ih
      · exact pushCap_length_eq _ _ _ _ _ hlen
      · rw [keys_dreplace]
        exact hnda
      · intro t0 ht0
        rcases mem_pushCap _ _ _ _ ht0 with ht0' | rfl
        · have ht0t : t0 ≠ t := hdisj t0 ht0' (t, v) (List.mem_cons_self _ _)
          rw [dlookup_dreplace_ne _ _ _ _ ht0t]
          exact hro t0 ht0'
        · rw [dlookup_dreplace_self _ _ _ (by simp [hcur])]
          exact ⟨_, rfl, by simp⟩
      · intro p hp
        rw [dlookup_dreplace_ne _ _ _ _ (Ne.symm (htrest p hp))]
        exact hitems p (List.mem_cons_of_mem _ hp)
      · intro t0 ht0 p hp
        rcases mem_pushCap _ _ _ _ ht0 with ht0' | rfl
        · exact hdisj t0 ht0' p (List.mem_cons_of_mem _ hp)
        · exact htrest p hp
      · exact hndrest
      · intro q hq
        rcases mem_dreplace_nodup _ _ _ _ hnda hq with rfl | ⟨hq3, hq4⟩
        · exact Or.inl (by simp)
        · rcases hvi q hq3 with hcnt | ⟨p, hp, hpq⟩
          · exact Or.inl hcnt
          · rcases List.mem_cons.mp hp with rfl | hp'
            · exact absurd hpq.symm hq4
            · exact Or.inr ⟨p, hp', hpq⟩

theorem aggregate_duplicates_isSome (input : List (Int × ReadAccess))
    (hnd : (input.map Prod.fst).Nodup) : (aggregate_duplicates input).isSome := by
  have hperm : (sortByKey input).Perm input := List.perm_insertionSort _ _
  obtain ⟨agg', hloop, hcnt⟩ := aggLoop_counts (sortByKey input) [] [] input
    rfl hnd (by simp)
    (fun p hp => dlookup_isSome_of_mem p input (hperm.subset hp))
    (by simp)
    (((hperm.map Prod.fst).nodup_iff).mpr hnd)
    (fun q hq => Or.inr ⟨q, hperm.symm.subset hq, rfl⟩)
  unfold aggregate_duplicates
  rw [hloop]
  exact aggFinish_isSome agg' hcnt

theorem collapseLoop_isSome :
    ∀ (items : List (Int × ReadAccess)) (last : Option LastAccess)
      (collapsed : List ReadAccess),
    (last.isSome → collapsed ≠ []) → (collapseLoop items last collapsed).isSome := by
  intro items
  induction items with
  | nil => intro last collapsed _; simp [collapseLoop]
  | cons tv rest ih =>
    obtain ⟨t, v⟩ := tv
    intro last collapsed h
    rw [collapseLoop.eq_def]
    dsimp only
    cases last with
    | none => exact ih _ _ (fun _ => by simp)
    | some la =>
      dsimp only
      split
      · have hne : collapsed ≠ [] := h (by simp)
        match hgl : collapsed.getLast? with
        | none => exact absurd (List.getLast?_eq_none_iff.mp hgl) hne
        | some prev => exact ih _ _ (fun _ => by simp)
      · exact ih _ _ (fun _ => by simp)

theorem collapse_entry_types_isSome (input : List (Int × ReadAccess)) :
    (collapse_entry_types input).isSome := by
  unfold collapse_entry_types
  rw [Option.isSome_map']
  exact collapseLoop_isSome (sortByKey input) none [] (by simp)

theorem do_normalize_isSome_iff (input : List (Int × ReadAccess)) :
    (do_normalize_timestamps input).isSome ↔ input ≠ [] := by
  cases input with
  | nil => simp [do_normalize_timestamps, minStart?]
  | cons p rest => simp [do_normalize_timestamps, minStart?]

/-- Claim C1 (amended): the single-line decoder returns a defined result
for every capture that is non-empty, has equally long time and sample
sequences, byte-valued samples, and whose final sample is not one of the
read opcodes; duplicate aggregation returns a defined result on every
collection with pairwise-distinct keys; type collapsing always returns a
defined result; timestamp normalization is defined exactly on non-empty
collections. The degenerate inputs named by the original claim (empty
capture, truncated trailing read instruction, quad capture without a
recognized read command) make the code raise instead of producing a
fallback. -/
theorem C1_defined_results :
    (∀ (rd : RangeDict RType) (time : List Int) (mosi : List Nat),
      mosi ≠ [] → time.length = mosi.length → (∀ b ∈ mosi, b < 256) →
      (∀ op, mosi.getLast? = some op → ¬(op = 0x03 ∨ op = 0x0B)) →
      (find_read_accesses_mosi rd time mosi).isSome)
    ∧ (∀ input : List (Int × ReadAccess), (input.map Prod.fst).Nodup →
        (aggregate_duplicates input).isSome)
    ∧ (∀ input : List (Int × ReadAccess), (collapse_entry_types input).isSome)
    ∧ (∀ input : List (Int × ReadAccess),
        (do_normalize_timestamps input).isSome ↔ input ≠ []) := by
  refine ⟨?_, aggregate_duplicates_isSome, collapse_entry_types_isSome,
    do_normalize_isSome_iff⟩
  intro rd time mosi hne hlen hb hlast
  unfold find_read_accesses_mosi find_read_accesses_mosi_traced
  rw [Option.isSome_map']
  have h0 : 0 < time.length := by
    rw [hlen]
    exact List.length_pos.mpr hne
  rw [List.getElem?_eq_getElem h0]
  exact findA_isSome rd time mosi hb hlen hlast (mosi.length + 1) 0 _
    (by omega) (by omega)

/-- Witness for C1 at concrete inputs: a one-sample Write Enable capture
and one-record collections for the three stages. -/
theorem C1_defined_results_witness :
    (find_read_accesses_mosi [] [5] [0x06]).isSome
    ∧ (aggregate_duplicates [(0, cAcc1)]).isSome
    ∧ (collapse_entry_types [(0, cAcc1)]).isSome
    ∧ ((do_normalize_timestamps [(0, cAcc1)]).isSome ↔
        ([(0, cAcc1)] : List (Int × ReadAccess)) ≠ []) :=
  ⟨C1_defined_results.1 [] [5] [0x06] (by simp) (by simp) (by decide)
      (by intro op h; rw [← Option.some.inj h]; decide),
   C1_defined_results.2.1 [(0, cAcc1)] (by simp),
   C1_defined_results.2.2.1 [(0, cAcc1)],
   C1_defined_results.2.2.2 [(0, cAcc1)]⟩

/-- Counterexample for C1 as stated: the decoder raises (models to `none`)
on an empty capture (IndexError at `data['time'][index]`, line 386), on a
lone truncated read opcode (IndexError at line 398), and on a quad capture
with no recognized read command (KeyError at line 493), and timestamp
normalization raises on an empty collection (ValueError in `min`). -/
theorem C1_counterexample :
    find_read_accesses_mosi [] [] [] = none
    ∧ find_read_accesses_mosi [] [0] [0x03] = none
    ∧ find_read_accesses_value [] [10, 20, 30] [1, 2, 4] = none
    ∧ do_normalize_timestamps [] = none := by decide

/-!
Claim C3.
-/

theorem mkAcc_address (j : Int) (a : Nat) : (mkAcc j a).address = a := rfl

theorem survRaw_zero (a : Nat) : survRaw a 0 = [] := rfl

theorem survRaw_full (a k : Nat) (h : k % 9 = 0) :
    survRaw a k = survFull a (k / 9) := by
  unfold survRaw survFull numGroups
  rw [show (k + 8) / 9 = k / 9 from by omega]
  apply List.map_congr_left
  intro g hg
  rw [List.mem_range] at hg
  rw [show survCount k g = 8 from by
    unfold survCount; rw [Nat.min_eq_left (by omega)]]

theorem survRaw_decomp (a k : Nat) (h : k % 9 ≠ 0) :
    survRaw a k = survFull a (k / 9)
      ++ [(((9 * (k / 9) : Nat) : Int),
           { mkAcc ((9 * (k / 9) : Nat) : Int) a with
             duplicate_count := some (k % 9) })] := by
  unfold survRaw numGroups
  rw [show (k + 8) / 9 = k / 9 + 1 from by omega]
  rw [List.range_succ, List.map_append]
  congr 1
  · unfold survFull
    apply List.map_congr_left
    intro g hg
    rw [List.mem_range] at hg
    rw [show survCount k g = 8 from by
      unfold survCount; rw [Nat.min_eq_left (by omega)]]
  · rw [List.map_cons, List.map_nil]
    rw [show survCount k (k / 9) = k % 9 from by
      unfold survCount
      rw [show k - 9 * (k / 9) = k % 9 from by omega,
        Nat.min_eq_right (by omega)]]

theorem survFull_succ (a q : Nat) :
    survFull a (q + 1) = survFull a q
      ++ [(((9 * q : Nat) : Int),
           { mkAcc ((9 * q : Nat) : Int) a with duplicate_count := some 8 })] := by
  unfold survFull
  rw [List.range_succ, List.map_append]
  rfl

theorem survFull_key_ne (a q : Nat) (j : Nat) (hj : 9 * q ≤ j) :
    ∀ p ∈ survFull a q, p.1 ≠ (j : Int) := by
  intro p hp
  unfold survFull at hp
  obtain ⟨g, hg, rfl⟩ := List.mem_map.mp hp
  rw [List.mem_range] at hg
  intro he
  have h2 : ((9 * g : Nat) : Int) = (j : Int) := he
  have h3 : (9 * g : Nat) = j := by exact_mod_cast h2
  omega

theorem runItems_cons (a s len : Nat) :
    runItems a s (len + 1) = ((s : Int), mkAcc (s : Int) a) :: runItems a (s + 1) len := by
  unfold runItems
  rw [List.range'_succ]
  rfl

theorem runItems_zero (a s : Nat) : runItems a s 0 = [] := rfl

theorem pushCap_nil {α : Type} (x : α) : pushCap 200 x [] = [x] := by
  simp [pushCap]

theorem aggLoop_run (a : Nat) :
    ∀ (len k : Nat),
    (k % 9 = 0 →
      aggLoop (runItems a k len) [] [] (survRaw a k ++ runItems a k len)
        = some (survRaw a (k + len)))
    ∧ (1 ≤ k % 9 →
      aggLoop (runItems a k len) [a] [((9 * (k / 9) : Nat) : Int)]
          (survRaw a k ++ runItems a k len)
        = some (survRaw a (k + len))) := by
  intro len
  induction len with
  | zero =>
    intro k
    constructor
    · intro _
      rw [runItems_zero, List.append_nil]
      rfl
    · intro _
      rw [runItems_zero, List.append_nil]
      rfl
  | succ len ih =>
    intro k
    have hkey : ∀ p ∈ survFull a (k / 9), p.1 ≠ ((k : Nat) : Int) :=
      survFull_key_ne a (k / 9) k (by omega)
    constructor
    · intro h9
      rw [runItems_cons, aggLoop]
      dsimp only
      rw [if_pos (show (mkAcc (k : Int) a).address ∉ ([] : List Nat) by simp)]
      rw [survRaw_full a k h9]
      rw [dlookup_append_right _ _ _ hkey, dlookup_head]
      dsimp only
      rw [dreplace_append_right _ _ _ _ hkey, dreplace_head]
      rw [pushCap_nil, pushCap_nil, mkAcc_address]
      have H := (ih (k + 1)).2 (by omega)
      rw [survRaw_decomp a (k + 1) (by omega)] at H
      rw [show (k + 1) / 9 = k / 9 from by omega] at H
      rw [show (k + 1) % 9 = 1 from by omega] at H
      rw [show (9 * (k / 9) : Nat) = k from by omega] at H
      rw [List.append_assoc, List.singleton_append] at H
      rw [show k + 1 + len = k + (len + 1) from by omega] at H
      exact H
    · intro h1
      rw [runItems_cons, aggLoop]
      dsimp only
      rw [if_neg (show ¬((mkAcc (k : Int) a).address ∉ [a]) by simp [mkAcc])]
      rw [mkAcc_address, List.indexOf_cons_self]
      rw [List.getElem?_cons_zero]
      dsimp only
      rw [survRaw_decomp a k (by omega)]
      rw [List.append_assoc, List.singleton_append]
      have hkey9 : ∀ p ∈ survFull a (k / 9), p.1 ≠ ((9 * (k / 9) : Nat) : Int) :=
        survFull_key_ne a (k / 9) (9 * (k / 9)) (le_refl _)
      rw [dlookup_append_right _ _ _ hkey9, dlookup_head]
      dsimp only
      by_cases hc8 : k % 9 < 8
      · rw [if_pos (show k % 9 < MAXIMUM_AGGREGATION_COUNT from hc8)]
        rw [dreplace_append_right _ _ _ _ hkey9, dreplace_head]
        rw [ddelete_append_right _ _ _ hkey]
        rw [ddelete_cons_ne _ _ _ _ (show ((9 * (k / 9) : Nat) : Int) ≠ (k : Int)
          from by
            intro he
            have : (9 * (k / 9) : Nat) = k := by exact_mod_cast he
            omega)]
        rw [ddelete_head]
        have H := (ih (k + 1)).2 (by omega)
        rw [survRaw_decomp a (k + 1) (by omega)] at H
        rw [show (k + 1) / 9 = k / 9 from by omega] at H
        rw [show (k + 1) % 9 = k % 9 + 1 from by omega] at H
        rw [List.append_assoc, List.singleton_append] at H
        rw [show k + 1 + len = k + (len + 1) from by omega] at H
        exact H
      · rw [if_neg (show ¬(k % 9 < MAXIMUM_AGGREGATION_COUNT) from hc8)]
        rw [ddelete_append_right _ _ _ hkey]
        rw [ddelete_cons_ne _ _ _ _ (show ((9 * (k / 9) : Nat) : Int) ≠ (k : Int)
          from by
            intro he
            have : (9 * (k / 9) : Nat) = k := by exact_mod_cast he
            omega)]
        rw [ddelete_head]
        have H := (ih (k + 1)).1 (by omega)
        rw [survRaw_full a (k + 1) (by omega)] at H
        rw [show (k + 1) / 9 = k / 9 + 1 from by omega] at H
        rw [survFull_succ] at H
        rw [show k % 9 = 8 from by omega]
        rw [List.append_assoc, List.singleton_append] at H
        rw [show k + 1 + len = k + (len + 1) from by omega] at H
        exact H

theorem aggFinish_of_counts :
    ∀ (l : List (Int × ReadAccess)),
    (∀ q ∈ l, q.2.duplicate_count.isSome) →
    aggFinish l = some (l.map (fun q => (q.1,
      { q.2 with info := q.2.info
          ++ ["x" ++ toString (q.2.duplicate_count.getD 0)] }))) := by
  intro l
  induction l with
  | nil => intro _; rfl
  | cons q rest ih =>
    intro h
    obtain ⟨t, v⟩ := q
    obtain ⟨c, hc⟩ := Option.isSome_iff_exists.mp (h (t, v) (List.mem_cons_self _ _))
    rw [aggFinish]
    dsimp only at hc ⊢
    rw [hc]
    dsimp only
    rw [ih (fun q hq => h q (List.mem_cons_of_mem _ hq))]
    simp [hc]

theorem aggregate_run (a n : Nat) :
    aggregate_duplicates (runInput n a) = some (expSurv a n) := by
  unfold aggregate_duplicates
  have hsort : sortByKey (runInput n a) = runInput n a := by
    apply sortByKey_eq_self
    unfold runInput
    rw [List.pairwise_map]
    apply (List.pairwise_lt_range n).imp
    intro i j hij
    show ((i : Nat) : Int) ≤ ((j : Nat) : Int)
    exact_mod_cast le_of_lt hij
  rw [hsort]
  have hrun : runInput n a = runItems a 0 n := by
    unfold runInput runItems
    rw [List.range_eq_range' n]
  rw [hrun]
  have H := (aggLoop_run a n 0).1 (by omega)
  rw [survRaw_zero, List.nil_append, Nat.zero_add] at H
  rw [H]
  dsimp only
  rw [aggFinish_of_counts _ (by
    intro q hq
    unfold survRaw at hq
    obtain ⟨g, hg, rfl⟩ := List.mem_map.mp hq
    simp)]
  congr 1
  unfold survRaw expSurv
  rw [List.map_map]
  apply List.map_congr_left
  intro g hg
  simp [mkAcc, Function.comp]

theorem sum_survCount : ∀ n : Nat,
    ((List.range (numGroups n)).map (survCount n)).sum = n - n / 9 := by
  intro n
  induction n using Nat.strong_induction_on with
  | _ n ih =>
    by_cases h9 : n < 9
    · interval_cases n <;> decide
    · have h' := ih (n - 9) (by omega)
      rw [show numGroups n = numGroups (n - 9) + 1 from by unfold numGroups; omega]
      rw [List.range_succ_eq_map, List.map_cons, List.map_map, List.sum_cons]
      rw [List.map_congr_left (show ∀ g ∈ List.range (numGroups (n - 9)),
          (survCount n ∘ Nat.succ) g = survCount (n - 9) g from by
        intro g _
        simp only [Function.comp]
        unfold survCount
        congr 1
        omega)]
      rw [h']
      rw [show survCount n 0 = 8 from by
        unfold survCount; rw [Nat.min_eq_left (by omega)]]
      omega

/-- Claim C3 (amended): duplicate aggregation of `n` consecutive accesses
to the same address yields the closed form `expSurv`: one original per
`MAXIMUM_AGGREGATION_COUNT + 1 = 9` occurrences (8 counted, the ninth
evicts the window slot and is dropped without being counted), so
`(n + 8) / 9` records survive and the multiplicities sum to `n - n / 9`;
for `1 ≤ n ≤ 8` exactly one record survives, tagged with multiplicity
`n`. -/
theorem C3_duplicate_aggregation :
    (∀ (n a : Nat),
      aggregate_duplicates (runInput n a) = some (expSurv a n)
      ∧ (expSurv a n).length = (n + 8) / 9
      ∧ sumCounts (expSurv a n) = n - n / 9)
    ∧ (∀ (n a : Nat), 1 ≤ n → n ≤ 8 →
      aggregate_duplicates (runInput n a)
        = some [((0 : Int),
          { mkAcc 0 a with
            duplicate_count := some n,
            info := ["x" ++ toString n] })]) := by
  constructor
  · intro n a
    refine ⟨aggregate_run a n, ?_, ?_⟩
    · simp [expSurv, numGroups]
    · unfold sumCounts expSurv
      rw [List.map_map]
      rw [List.map_congr_left (show ∀ g ∈ List.range (numGroups n),
          ((fun p : Int × ReadAccess => p.2.duplicate_count.getD 0) ∘ fun g =>
            (((9 * g : Nat) : Int),
             { mkAcc ((9 * g : Nat) : Int) a with
               duplicate_count := some (survCount n g),
               info := ["x" ++ toString (survCount n g)] })) g
            = survCount n g from by
        intro g _
        simp)]
      exact sum_survCount n
  · intro n a h1 h8
    rw [aggregate_run a n]
    congr 1
    unfold expSurv
    rw [show numGroups n = 1 from by unfold numGroups; omega]
    rw [show List.range 1 = [0] from rfl, List.map_cons, List.map_nil]
    rw [show survCount n 0 = n from by
      unfold survCount
      rw [Nat.mul_zero, Nat.sub_zero, Nat.min_eq_right h8]]
    simp

/-- Witness for C3 at the concrete run of five accesses to address 7. -/
theorem C3_duplicate_aggregation_witness :
    (aggregate_duplicates (runInput 5 7) = some (expSurv 7 5)
      ∧ (expSurv 7 5).length = (5 + 8) / 9
      ∧ sumCounts (expSurv 7 5) = 5 - 5 / 9)
    ∧ aggregate_duplicates (runInput 5 7)
        = some [((0 : Int),
          { mkAcc 0 7 with
            duplicate_count := some 5,
            info := ["x" ++ toString 5] })] :=
  ⟨C3_duplicate_aggregation.1 5 7,
   C3_duplicate_aggregation.2 5 7 (by decide) (by decide)⟩

/-- Counterexample for C3 as stated: a run of 9 consecutive accesses to
the same address (9 exceeds the maximum of 8) leaves exactly one surviving
record, not at least two, and the multiplicities sum to 8, not 9: the
ninth occurrence evicts the window slot and is dropped uncounted. -/
theorem C3_counterexample :
    (aggregate_duplicates (runInput 9 5)).map (fun l => (l.length, sumCounts l))
      = some (1, 8)
    ∧ ¬(2 ≤ (1 : Nat))
    ∧ (8 : Nat) ≠ 9 := by decide

end PSPTrace
